import Mathlib

/-!
# Status files of lazygit: loading, ordering and reconciling

A shallow embedding of `pkg/commands/loading_files.go` (`GetStatusFiles`,
`GitStatus`, `MergeStatusFiles`, `sortByStaged`) and of the merge-base resolver
exercised by `pkg/commands/commit_list_builder_test.go`.

Conventions of the embedding:

* a Go `string` is its sequence of bytes, `List Nat` (each byte a number below 256);
  indexing and slicing count bytes, `<` compares byte by byte;
* an out-of-range slice expression panics in Go; here the enclosing function
  returns `none`;
* `[]*models.File` is a `List File`, a possibly-nil `*models.File` an `Option File`;
* the calls to `c.Log` do not influence any returned value and are left out.
-/

namespace Lazygit

/-! ## Go strings -/

/-- A Go string: its bytes. -/
abbrev GoString := List Nat

/-- Bytes of a string literal. The literals of the source are ASCII, one byte per character. -/
def bytes (s : String) : GoString := s.data.map Char.toNat

/-- The slice expression `s[lo:hi]`; it panics unless `lo ≤ hi ≤ len(s)`. -/
def slice (s : GoString) (lo hi : Nat) : Option GoString :=
  if lo ≤ hi ∧ hi ≤ s.length then some ((s.drop lo).take (hi - lo)) else none

/-- The slice expression `s[lo:]`; it panics unless `lo ≤ len(s)`. -/
def sliceFrom (s : GoString) (lo : Nat) : Option GoString :=
  if lo ≤ s.length then some (s.drop lo) else none

/-- Go's `strings.HasPrefix(s, pre)`: `len(s) >= len(pre) && s[:len(pre)] == pre`. -/
def HasPrefix (s pre : GoString) : Bool :=
  decide (pre.length ≤ s.length) && (s.take pre.length == pre)

/-- Go's `a < b` on strings: byte-wise lexicographic, a proper prefix is smaller. -/
def strLess : GoString → GoString → Bool
  | [], [] => false
  | [], _ :: _ => true
  | _ :: _, [] => false
  | a :: as, b :: bs => decide (a < b) || (a == b && strLess as bs)

/-- Modelled from the spec: `utils.IncludesString` is not among the source files; the spec
reads `IncludesString(list, a)` as membership of `a` in the set `list`. -/
def IncludesString (list : List GoString) (a : GoString) : Bool :=
  list.any (fun x => x == a)

/-- Modelled from the spec: `utils.IncludesInt` is not among the source files; the spec
reads it as the test whether an index is already consumed, i.e. membership. -/
def IncludesInt (list : List Nat) (a : Nat) : Bool :=
  list.any (fun x => x == a)

/-! ## Data model -/

/-- The fields of `models.File` that `GetStatusFiles` fills in. -/
structure File where
  Name : GoString
  DisplayString : GoString
  HasStagedChanges : Bool
  HasUnstagedChanges : Bool
  Tracked : Bool
  Deleted : Bool
  HasMergeConflicts : Bool
  HasInlineMergeConflicts : Bool
  Type_ : GoString
  ShortStatus : GoString
deriving DecidableEq, Repr

/-- The methods of `c.OSCommand` used here; their bodies are outside the source files. -/
structure OSCommand where
  /-- `RunCommandWithOutput(format, args...)`: captured output and an error, if any. -/
  RunCommandWithOutput : GoString → List GoString → GoString × Option GoString
  Unquote : GoString → GoString
  FileType : GoString → GoString

/-- The receiver `c *GitCommand` together with `utils.SplitLines`, whose body is outside
the source files as well. -/
structure GitCommand where
  OSCommand : OSCommand
  GetConfigValue : GoString → GoString
  SplitLines : GoString → List GoString

structure GetStatusFileOptions where
  NoRenames : Bool

structure GitStatusOptions where
  NoRenames : Bool
  UntrackedFilesArg : GoString

/-! ## sortByStaged -/

/-- Go's `sort.SliceStable(xs, less)`: the stable sort of `xs` by `less`, here as the
insertion sort that puts an element before the first one that is not smaller. -/
def SliceStable (less : File → File → Bool) (xs : List File) : List File :=
  List.insertionSort (fun a b => less b a = false) xs

/-- The comparison closure `func(i, j int) bool { return xs[i].Name < xs[j].Name }`. -/
def nameLess (a b : File) : Bool := strLess a.Name b.Name

/-- The loop of `sortByStaged` over `files`, from the lists `(stagedFiles, unStagedFiles)`
collected so far. -/
def splitByStaged : List File → List File × List File → List File × List File
  | [], acc => acc
  | file :: rest, (stagedFiles, unStagedFiles) =>
    if file.HasStagedChanges then splitByStaged rest (stagedFiles ++ [file], unStagedFiles)
    else splitByStaged rest (stagedFiles, unStagedFiles ++ [file])

def sortByStaged (files : List File) : List File :=
  let (stagedFiles, unStagedFiles) := splitByStaged files ([], [])
  SliceStable nameLess stagedFiles ++ SliceStable nameLess unStagedFiles

/-! ## GetStatusFiles -/

def GitStatus (c : GitCommand) (opts : GitStatusOptions) : GoString × Option GoString :=
  let noRenamesFlag := if opts.NoRenames then bytes "--no-renames" else bytes ""
  c.OSCommand.RunCommandWithOutput (bytes "git status %s --porcelain %s")
    [opts.UntrackedFilesArg, noRenamesFlag]

/-- The body of the loop of `GetStatusFiles` for a line that is not a warning: the file
built from `statusString`, or `none` when a slice expression panics. -/
def statusFile (c : GitCommand) (statusString : GoString) : Option File := do
  let change ← slice statusString 0 2
  let stagedChange ← slice change 0 1
  let unstagedChange ← slice statusString 1 2
  let filename := c.OSCommand.Unquote (← sliceFrom statusString 3)
  let untracked := IncludesString [bytes "??", bytes "A ", bytes "AM"] change
  let hasNoStagedChanges := IncludesString [bytes " ", bytes "U", bytes "?"] stagedChange
  let hasMergeConflicts := IncludesString
    [bytes "DD", bytes "AA", bytes "UU", bytes "AU", bytes "UA", bytes "UD", bytes "DU"] change
  let hasInlineMergeConflicts := IncludesString [bytes "UU", bytes "AA"] change
  pure {
    Name := filename
    DisplayString := statusString
    HasStagedChanges := !hasNoStagedChanges
    HasUnstagedChanges := unstagedChange != bytes " "
    Tracked := !untracked
    Deleted := unstagedChange == bytes "D" || stagedChange == bytes "D"
    HasMergeConflicts := hasMergeConflicts
    HasInlineMergeConflicts := hasInlineMergeConflicts
    Type_ := c.OSCommand.FileType filename
    ShortStatus := change }

/-- The loop `for _, statusString := range statusStrings` with the `files` built so far. -/
def statusLoop (c : GitCommand) : List GoString → List File → Option (List File)
  | [], files => some files
  | statusString :: rest, files =>
    if HasPrefix statusString (bytes "warning") then statusLoop c rest files
    else
      match statusFile c statusString with
      | none => none
      | some file => statusLoop c rest (files ++ [file])

/-- The text that `GetStatusFiles` receives from `c.GitStatus`. -/
def statusOutputOf (c : GitCommand) (opts : GetStatusFileOptions) : GoString :=
  let untrackedFilesSetting := c.GetConfigValue (bytes "status.showUntrackedFiles")
  let untrackedFilesSetting :=
    if untrackedFilesSetting = bytes "" then bytes "all" else untrackedFilesSetting
  let untrackedFilesArg := bytes "--untracked-files=" ++ untrackedFilesSetting
  (GitStatus c { NoRenames := opts.NoRenames, UntrackedFilesArg := untrackedFilesArg }).1

/-- `GetStatusFiles`: the sorted files, or `none` when the loop panics. The error of
`c.GitStatus` is only logged. -/
def GetStatusFiles (c : GitCommand) (opts : GetStatusFileOptions) : Option (List File) :=
  let statusStrings := c.SplitLines (statusOutputOf c opts)
  match statusLoop c statusStrings [] with
  | none => none
  | some files => some (sortByStaged files)

/-! ## MergeStatusFiles -/

/-- The methods `IsRename` and `Matches` of `models.File`; their bodies are outside the
source files. `Matches f g` stands for `f.Matches(g)`. -/
structure FileMethods where
  IsRename : File → Bool
  Matches : File → File → Bool

/-- The variables `result` and `appendedIndexes` of `MergeStatusFiles`. -/
structure MergeState where
  result : List File
  appendedIndexes : List Nat
deriving DecidableEq, Repr

/-- The condition `waitForMatchingFile` of the inner loop. -/
def waitForMatchingFile (m : FileMethods) (selectedFile : Option File)
    (oldFile newFile : File) : Bool :=
  match selectedFile with
  | none => false
  | some sel =>
    m.IsRename newFile && !m.IsRename sel && m.Matches newFile sel && !m.Matches oldFile sel

/-- The inner loop `for newIndex, newFile := range newFiles` on the entries from index
`newIndex` on. -/
def mergeInner (m : FileMethods) (selectedFile : Option File) (oldFile : File) :
    Nat → List File → MergeState → MergeState
  | _, [], st => st
  | newIndex, newFile :: rest, st =>
    if IncludesInt st.appendedIndexes newIndex then
      mergeInner m selectedFile oldFile (newIndex + 1) rest st
    else if m.Matches oldFile newFile && !waitForMatchingFile m selectedFile oldFile newFile then
      mergeInner m selectedFile oldFile (newIndex + 1) rest
        { result := st.result ++ [newFile], appendedIndexes := st.appendedIndexes ++ [newIndex] }
    else
      mergeInner m selectedFile oldFile (newIndex + 1) rest st

/-- The outer loop `for _, oldFile := range oldFiles`. -/
def mergeOuter (m : FileMethods) (selectedFile : Option File) (newFiles : List File) :
    List File → MergeState → MergeState
  | [], st => st
  | oldFile :: rest, st =>
    mergeOuter m selectedFile newFiles rest (mergeInner m selectedFile oldFile 0 newFiles st)

def MergeStatusFiles (m : FileMethods) (oldFiles newFiles : List File)
    (selectedFile : Option File) : List File :=
  if oldFiles.length = 0 then newFiles
  else sortByStaged (mergeOuter m selectedFile newFiles oldFiles
    { result := [], appendedIndexes := [] }).result

/-- Staged-first, name-sorted presentation: of two entries, the earlier one is never an
unstaged one before a staged one, and within a group its name is not greater. -/
abbrev StagedFirstSorted (l : List File) : Prop :=
  l.Pairwise (fun a b => (a.HasStagedChanges = false → b.HasStagedChanges = false) ∧
    (a.HasStagedChanges = b.HasStagedChanges → strLess b.Name a.Name = false))

/-- The order `a.Name ≤ b.Name` that `SliceStable nameLess` sorts by. -/
abbrev nameLE (a b : File) : Prop := nameLess b a = false

/-- The decoding table of the spec for a record: `code` is its first two bytes, `s` and `u`
the first and the second byte of `code`. -/
abbrev DecodesAs (record : GoString) (f : File) : Prop :=
  let code := record.take 2
  let s := code.take 1
  let u := code.drop 1
  f.Tracked = decide (code ∉ [bytes "??", bytes "A ", bytes "AM"]) ∧
  f.HasStagedChanges = decide (s ∉ [bytes " ", bytes "U", bytes "?"]) ∧
  f.HasUnstagedChanges = decide (u ≠ bytes " ") ∧
  f.Deleted = decide (s = bytes "D" ∨ u = bytes "D") ∧
  f.HasMergeConflicts = decide (code ∈
    [bytes "DD", bytes "AA", bytes "UU", bytes "AU", bytes "UA", bytes "UD", bytes "DU"]) ∧
  f.HasInlineMergeConflicts = decide (code ∈ [bytes "UU", bytes "AA"])

/-- The pieces of `text` between line feeds (byte 10), `cur` being the piece read so far. -/
def splitOnLF : GoString → GoString → List GoString
  | [], cur => [cur]
  | b :: rest, cur => if b = 10 then cur :: splitOnLF rest [] else splitOnLF rest (cur ++ [b])

/-- Modelled from the spec: `utils.SplitLines` is not among the source files; the spec says
it splits the raw text into lines. Here: the pieces between line feeds, an empty text
having no line and a final line feed ending the last line. -/
def splitLines (text : GoString) : List GoString :=
  if text = [] then []
  else
    let lines := splitOnLF text []
    if lines.getLast? = some [] then lines.dropLast else lines

/-- A command whose runner answers every call with the text `statusOutput` and no error,
with no configured value, and with paths that need no unquoting. -/
def sampleCommand (statusOutput : GoString) : GitCommand :=
  { OSCommand :=
      { RunCommandWithOutput := fun _ _ => (statusOutput, none)
        Unquote := fun s => s
        FileType := fun _ => bytes "file" }
    GetConfigValue := fun _ => bytes ""
    SplitLines := splitLines }

/-- The lines of the status text that `GetStatusFiles` decodes. -/
def statusLines (c : GitCommand) (opts : GetStatusFileOptions) : List GoString :=
  c.SplitLines (statusOutputOf c opts)

/-- A line that is not skipped as a warning. -/
abbrev notWarning (line : GoString) : Bool := !HasPrefix line (bytes "warning")

/-- The two records of the scenario in the spec, `?? newfile.txt` and ` M edited.txt`. -/
def scenarioOutput : GoString := bytes "?? newfile.txt\n M edited.txt\n"

/-- A status text with a staged and two unstaged records, not in presentation order. -/
def unorderedOutput : GoString := bytes " M b.txt\nM  c.txt\n?? a.txt\n"

/-- A status text with a warning line between two records. -/
def warningOutput : GoString :=
  bytes " M b.txt\nwarning: LF will be replaced by CRLF in b.txt\n?? a.txt\n"

/-- The entries that one run of the inner loop appends for `oldFile`: those of `rest`
(numbered from `k`) whose index is not in `appended`, that `oldFile` matches and that are
not deferred by `waitForMatchingFile`, in the order of `rest`. -/
def pickedBy (m : FileMethods) (selectedFile : Option File) (oldFile : File)
    (appended : List Nat) (k : Nat) (rest : List File) : List (Nat × File) :=
  (rest.enumFrom k).filter (fun p => !IncludesInt appended p.1 &&
    (m.Matches oldFile p.2 && !waitForMatchingFile m selectedFile oldFile p.2))

/-- The loop invariant of `MergeStatusFiles`: the appended indexes are pairwise distinct, and
`result` holds, position by position, the entries of `newFiles` at those indexes. -/
def MergeInv (newFiles : List File) (st : MergeState) : Prop :=
  st.appendedIndexes.Nodup ∧
    List.Forall₂ (fun f i => newFiles[i]? = some f) st.result st.appendedIndexes

/-- Go's `strings.Contains(s, sub)`. -/
def Contains (s sub : GoString) : Bool := s.tails.any (fun t => HasPrefix t sub)

/-- Go's `strings.Split(s, sep)` for a non-empty `sep`, reading `s` from the left: `skip`
counts the bytes of a separator still to be passed over, `cur` is the piece read so far. -/
def splitSep (sep : GoString) : GoString → Nat → GoString → List GoString
  | [], _, cur => [cur]
  | _ :: rest, skip + 1, cur => splitSep sep rest skip cur
  | b :: rest, 0, cur =>
    if HasPrefix (b :: rest) sep then cur :: splitSep sep rest (sep.length - 1) []
    else splitSep sep rest 0 (cur ++ [b])

/-- The names of a file: its `Name` split at ` -> `, the two paths of a rename. -/
def Names (f : File) : List GoString := splitSep (bytes " -> ") f.Name 0 []

/-- Modelled from the spec: the methods `IsRename` and `Matches` of `models.File` are not among
the source files. By the spec the name of a rename is the composite form `old -> new`, and two
files match by path identity, accounting for rename composite names: a file is a rename when
its name contains ` -> `, and two files match when their names share a path. -/
def renameMethods : FileMethods :=
  { IsRename := fun f => Contains f.Name (bytes " -> ")
    Matches := fun f g => (Names f).any (fun n => (Names g).any (fun n' => n == n')) }

/-- The files that the loop of `GetStatusFiles` builds for the given records, in the given
order (not sorted). -/
def recordFiles (records : List String) : List File :=
  records.filterMap (fun r => statusFile (sampleCommand []) (bytes r))

/-- The list that `GetStatusFiles` returns for the given status text. -/
def statusFilesOf (statusOutput : String) : List File :=
  (GetStatusFiles (sampleCommand (bytes statusOutput)) ⟨false⟩).getD []

/-! ## Merge-base resolver -/

/-- Modelled from the spec: the command runner of section 6,
`run(programName, argv) -> (stdout, error?)`. -/
abbrev Runner := GoString → List GoString → GoString × Option GoString

/-- White space at the ends of a command output: space, tab, line feed, carriage return. -/
def isSpace (b : Nat) : Bool := b == 32 || b == 9 || b == 10 || b == 13

/-- Modelled from the spec: the trimmed text of a command output. -/
def TrimSpace (s : GoString) : GoString :=
  ((s.dropWhile isSpace).reverse.dropWhile isSpace).reverse

/-- Modelled from the spec: the collaborators of the merge-base resolver, the command runner
and the fixed set of trunk branch names. -/
structure CommitListBuilder where
  run : Runner
  trunkNames : List GoString

/-- Modelled from the spec: step 1 of section 4.4, the short name of the current branch,
asked from the runner with `symbolic-ref --short HEAD`. -/
def CurrentBranchName (b : CommitListBuilder) : GoString × Option GoString :=
  match b.run (bytes "git") [bytes "symbolic-ref", bytes "--short", bytes "HEAD"] with
  | (_, some err) => (bytes "", some err)
  | (out, none) => (TrimSpace out, none)

/-- Modelled from the spec: step 2 of section 4.4, the comparison target: the branch itself
when it is a trunk branch, the integration branch `develop` otherwise. -/
def baseBranchOf (b : CommitListBuilder) (currentBranch : GoString) : GoString :=
  if b.trunkNames.contains currentBranch then currentBranch else bytes "develop"

/-- Modelled from the spec: `getMergeBase` of `CommitListBuilder` is not among the source
files, only its test is. Section 4.4: a failure of the branch resolution is returned as the
resolver's failure; a failure of the merge-base command is swallowed and gives the empty
commit; otherwise the commit is the trimmed output of the merge-base command. -/
def getMergeBase (b : CommitListBuilder) (ref : GoString) : GoString × Option GoString :=
  match CurrentBranchName b with
  | (_, some err) => (bytes "", some err)
  | (currentBranch, none) =>
    match b.run (bytes "git") [bytes "merge-base", ref, baseBranchOf b currentBranch] with
    | (_, some _) => (bytes "", none)
    | (output, none) => (TrimSpace output, none)

/-- The runner of a test scenario: `branch` answers `symbolic-ref`, `mergeBase` answers
`merge-base`. -/
def scenarioRunner (branch mergeBase : GoString × Option GoString) : Runner :=
  fun _ args =>
    if args.head? = some (bytes "symbolic-ref") then branch
    else if args.head? = some (bytes "merge-base") then mergeBase
    else (bytes "", some (bytes "unexpected command"))

/-- The entries of `l` with staged flag `s` and name `n`, in the order of `l`. -/
def withKey (s : Bool) (n : GoString) (l : List File) : List File :=
  l.filter (fun f => f.HasStagedChanges == s && f.Name == n)

/-- The runner of a test scenario that checks its arguments: it answers `branch` to
`git symbolic-ref --short HEAD`, `answer` to `git` with exactly the arguments `expected`,
and fails on every other call. -/
def assertingRunner (branch : GoString) (expected : List GoString) (answer : GoString) :
    Runner :=
  fun program args =>
    if program = bytes "git" ∧ args = [bytes "symbolic-ref", bytes "--short", bytes "HEAD"] then
      (branch, none)
    else if program = bytes "git" ∧ args = expected then (answer, none)
    else (bytes "", some (bytes "unexpected command"))

/-- The command `c` with a runner that returns the same text as the runner of `c` and
reports no error. -/
def withoutError (c : GitCommand) : GitCommand :=
  { c with
    OSCommand :=
      { c.OSCommand with
        RunCommandWithOutput := fun format args =>
          ((c.OSCommand.RunCommandWithOutput format args).1, none) } }

/-- A command like `sampleCommand` whose runner returns the text `statusOutput` and reports
the error `err`. -/
def failingCommand (statusOutput err : GoString) : GitCommand :=
  { OSCommand :=
      { RunCommandWithOutput := fun _ _ => (statusOutput, some err)
        Unquote := fun s => s
        FileType := fun _ => bytes "file" }
    GetConfigValue := fun _ => bytes ""
    SplitLines := splitLines }

/-- Methods that see a file through its name only. -/
def ByName (m : FileMethods) : Prop :=
  ∀ f g : File, f.Name = g.Name →
    m.IsRename f = m.IsRename g ∧
      ∀ h : File, m.Matches h f = m.Matches h g ∧ m.Matches f h = m.Matches g h

/-- The indexes of the entries of `newFiles` with one name are all in `idxs` or all outside. -/
def TiesTogether (newFiles : List File) (idxs : List Nat) : Prop :=
  ∀ (i j : Nat) (f g : File), newFiles[i]? = some f → newFiles[j]? = some g →
    f.Name = g.Name → i ∈ idxs → j ∈ idxs

/-- In `idxs` the indexes of entries of `newFiles` with one name stand in increasing order. -/
def TiesInOrder (newFiles : List File) (idxs : List Nat) : Prop :=
  idxs.Pairwise (fun i j => ∀ f g : File, newFiles[i]? = some f → newFiles[j]? = some g →
    f.Name = g.Name → i < j)

/-- The entry of `newFiles` at index `i` has staged flag `s` and name `n`. -/
def keyAt (newFiles : List File) (s : Bool) (n : GoString) (i : Nat) : Bool :=
  match newFiles[i]? with
  | some f => f.HasStagedChanges == s && f.Name == n
  | none => false

/-! ## Theorems -/

/-! ### The order on names -/

theorem strLess_asymm : ∀ a b : GoString, strLess a b = true → strLess b a = false
  | [], [], h => by simp [strLess] at h
  | [], _ :: _, _ => by simp [strLess]
  | _ :: _, [], h => by simp [strLess] at h
  | a :: as, b :: bs, h => by
    simp only [strLess, Bool.or_eq_true, decide_eq_true_eq, Bool.and_eq_true, beq_iff_eq] at h
    simp only [strLess, Bool.or_eq_false_iff, decide_eq_false_iff_not, Bool.and_eq_false_imp,
      beq_iff_eq]
    rcases h with h | ⟨rfl, h⟩
    · exact ⟨by omega, fun e => by omega⟩
    · exact ⟨by omega, fun _ => strLess_asymm as bs h⟩

theorem strLess_negtrans : ∀ a b c : GoString,
    strLess b a = false → strLess c b = false → strLess c a = false
  | [], _, [], _, _ => by simp [strLess]
  | [], _, _ :: _, _, _ => by simp [strLess]
  | _ :: _, [], _, h, _ => by simp [strLess] at h
  | _ :: _, _ :: _, [], _, h => by simp [strLess] at h
  | a :: as, b :: bs, c :: cs, h1, h2 => by
    simp only [strLess, Bool.or_eq_false_iff, decide_eq_false_iff_not, Bool.and_eq_false_imp,
      beq_iff_eq] at h1 h2 ⊢
    refine ⟨by omega, fun e => ?_⟩
    subst e
    have hb : b = c := by omega
    subst hb
    exact strLess_negtrans as bs cs (h1.2 rfl) (h2.2 rfl)

theorem strLess_irrefl (a : GoString) : strLess a a = false := by
  cases h : strLess a a
  · rfl
  · have := strLess_asymm a a h; simp [h] at this

theorem strLess_antisymm : ∀ a b : GoString, strLess a b = false → strLess b a = false → a = b
  | [], [], _, _ => rfl
  | [], _ :: _, h, _ => by simp [strLess] at h
  | _ :: _, [], _, h => by simp [strLess] at h
  | a :: as, b :: bs, h1, h2 => by
    simp only [strLess, Bool.or_eq_false_iff, decide_eq_false_iff_not, Bool.and_eq_false_imp,
      beq_iff_eq] at h1 h2
    have e : a = b := by omega
    subst e
    rw [strLess_antisymm as bs (h1.2 rfl) (h2.2 rfl)]

theorem nameLE_total : IsTotal File nameLE :=
  ⟨fun a b => by
    unfold nameLE nameLess
    cases h : strLess b.Name a.Name
    · exact Or.inl rfl
    · exact Or.inr (strLess_asymm _ _ h)⟩

theorem nameLE_trans : IsTrans File nameLE :=
  ⟨fun a b c h1 h2 => strLess_negtrans a.Name b.Name c.Name h1 h2⟩

/-! ### sortByStaged -/

theorem SliceStable_nameLess (xs : List File) :
    SliceStable nameLess xs = List.insertionSort nameLE xs := rfl

theorem splitByStaged_eq (files : List File) : ∀ s u : List File,
    splitByStaged files (s, u) =
      (s ++ files.filter (fun f => f.HasStagedChanges),
       u ++ files.filter (fun f => !f.HasStagedChanges)) := by
  induction files with
  | nil => intro s u; simp [splitByStaged]
  | cons f rest ih =>
    intro s u
    cases hf : f.HasStagedChanges <;> simp [splitByStaged, hf, ih]

theorem sortByStaged_eq (files : List File) :
    sortByStaged files =
      List.insertionSort nameLE (files.filter (fun f => f.HasStagedChanges)) ++
      List.insertionSort nameLE (files.filter (fun f => !f.HasStagedChanges)) := by
  simp [sortByStaged, splitByStaged_eq, SliceStable_nameLess]

theorem sortByStaged_perm (files : List File) : (sortByStaged files).Perm files := by
  rw [sortByStaged_eq]
  refine ((List.perm_insertionSort nameLE _).append (List.perm_insertionSort nameLE _)).trans ?_
  exact List.filter_append_perm _ files

theorem sortByStaged_sorted (files : List File) : StagedFirstSorted (sortByStaged files) := by
  rw [sortByStaged_eq]
  unfold StagedFirstSorted
  rw [List.pairwise_append]
  haveI := nameLE_total
  haveI := nameLE_trans
  have hs : ∀ a ∈ List.insertionSort nameLE (files.filter (fun f => f.HasStagedChanges)),
      a.HasStagedChanges = true := by
    intro a ha
    have := (List.mem_insertionSort nameLE).1 ha
    simpa using (List.mem_filter.1 this).2
  have hu : ∀ a ∈ List.insertionSort nameLE (files.filter (fun f => !f.HasStagedChanges)),
      a.HasStagedChanges = false := by
    intro a ha
    have := (List.mem_insertionSort nameLE).1 ha
    simpa using (List.mem_filter.1 this).2
  refine ⟨?_, ?_, ?_⟩
  · exact (List.sorted_insertionSort nameLE _).imp_of_mem
      (fun {a b} ha _ hab => ⟨fun h => (by rw [hs a ha] at h; cases h), fun _ => hab⟩)
  · exact (List.sorted_insertionSort nameLE _).imp_of_mem
      (fun {a b} _ hb hab => ⟨fun _ => hu b hb, fun _ => hab⟩)
  · intro a ha b hb
    exact ⟨fun _ => hu b hb, fun h => (by rw [hs a ha, hu b hb] at h; cases h)⟩

/-! ### The loop of GetStatusFiles -/

theorem IncludesString_eq (list : List GoString) (a : GoString) :
    IncludesString list a = decide (a ∈ list) := by
  induction list with
  | nil => simp [IncludesString]
  | cons x xs ih =>
    simp only [IncludesString, List.any_cons, List.mem_cons] at ih ⊢
    rw [ih]
    by_cases h : x = a
    · simp [h]
    · have h2 : ¬ a = x := fun e => h e.symm
      simp [h, h2]

theorem IncludesInt_eq (list : List Nat) (a : Nat) :
    IncludesInt list a = decide (a ∈ list) := by
  induction list with
  | nil => simp [IncludesInt]
  | cons x xs ih =>
    simp only [IncludesInt, List.any_cons, List.mem_cons] at ih ⊢
    rw [ih]
    by_cases h : x = a
    · simp [h]
    · have h2 : ¬ a = x := fun e => h e.symm
      simp [h, h2]

theorem statusFile_isSome_iff (c : GitCommand) (s : GoString) :
    (statusFile c s).isSome = true ↔ 3 ≤ s.length := by
  unfold statusFile slice sliceFrom
  by_cases h3 : 3 ≤ s.length
  · have h2 : 2 ≤ s.length := by omega
    simp [h3, h2]
  · by_cases h2 : 2 ≤ s.length
    · simp [h3, h2]
    · simp [h3, h2]

theorem statusFile_decodes (c : GitCommand) (s : GoString) (f : File)
    (h : statusFile c s = some f) : f.DisplayString = s ∧ DecodesAs s f := by
  have h3 : 3 ≤ s.length := (statusFile_isSome_iff c s).1 (by rw [h]; rfl)
  have h2 : 2 ≤ s.length := by omega
  unfold statusFile slice sliceFrom at h
  simp [h3, h2] at h
  subst h
  match s, h2 with
  | a :: b :: rest, _ =>
    refine ⟨rfl, ?_⟩
    simp only [DecodesAs, IncludesString_eq, List.take_succ_cons, List.take_zero, List.tail_cons,
      List.drop_succ_cons, List.drop_zero, bne, Bool.decide_or]
    refine ⟨?_, ?_, ?_, ?_, trivial, trivial⟩
    · simp
    · simp
    · cases h : ([b] == bytes " ") <;> simp_all
    · rw [Bool.or_comm]
      congr 1 <;> exact (Bool.eq_iff_iff.2 (by simp))

theorem statusLoop_some (c : GitCommand) : ∀ (lines : List GoString) (acc : List File),
    (∀ line ∈ lines, notWarning line = true → 3 ≤ line.length) →
    ∃ fs, statusLoop c lines acc = some (acc ++ fs) ∧
      List.Forall₂ (fun line f => statusFile c line = some f) (lines.filter notWarning) fs := by
  intro lines
  induction lines with
  | nil => intro acc _; exact ⟨[], by simp [statusLoop], by simp⟩
  | cons l rest ih =>
    intro acc h
    have hrest : ∀ line ∈ rest, notWarning line = true → 3 ≤ line.length :=
      fun line hl => h line (List.mem_cons_of_mem _ hl)
    by_cases hw : HasPrefix l (bytes "warning") = true
    · obtain ⟨fs, h1, h2⟩ := ih acc hrest
      exact ⟨fs, by simp [statusLoop, hw, h1], by simpa [notWarning, hw] using h2⟩
    · have hw2 : HasPrefix l (bytes "warning") = false := by simpa using hw
      have hlen : 3 ≤ l.length := h l (List.mem_cons_self _ _) (by simp [notWarning, hw2])
      have hsome := (statusFile_isSome_iff c l).2 hlen
      obtain ⟨f, hf⟩ := Option.isSome_iff_exists.1 hsome
      obtain ⟨fs, h1, h2⟩ := ih (acc ++ [f]) hrest
      refine ⟨f :: fs, by simp [statusLoop, hw2, hf, h1], ?_⟩
      simp only [notWarning, hw2, List.filter_cons, Bool.not_false, if_true]
      exact List.Forall₂.cons hf h2

theorem statusLoop_wellformed (c : GitCommand) : ∀ (lines : List GoString) (acc out : List File),
    statusLoop c lines acc = some out →
    ∀ line ∈ lines, notWarning line = true → 3 ≤ line.length := by
  intro lines
  induction lines with
  | nil => intro acc out _ line hl; cases hl
  | cons l rest ih =>
    intro acc out h line hl hnw
    by_cases hw : HasPrefix l (bytes "warning") = true
    · simp only [statusLoop, hw, if_true] at h
      rcases List.mem_cons.1 hl with rfl | hl
      · simp [notWarning, hw] at hnw
      · exact ih acc out h line hl hnw
    · have hw2 : HasPrefix l (bytes "warning") = false := by simpa using hw
      simp only [statusLoop, hw2] at h
      cases hf : statusFile c l with
      | none => simp [hf] at h
      | some f =>
        simp only [hf] at h
        rcases List.mem_cons.1 hl with rfl | hl
        · exact (statusFile_isSome_iff c line).1 (by rw [hf]; rfl)
        · exact ih _ out h line hl hnw

theorem GetStatusFiles_some (c : GitCommand) (opts : GetStatusFileOptions)
    (h : ∀ line ∈ statusLines c opts, notWarning line = true → 3 ≤ line.length) :
    ∃ fs, GetStatusFiles c opts = some (sortByStaged fs) ∧
      List.Forall₂ (fun line f => statusFile c line = some f)
        ((statusLines c opts).filter notWarning) fs := by
  obtain ⟨fs, h1, h2⟩ := statusLoop_some c (statusLines c opts) [] h
  refine ⟨fs, ?_, h2⟩
  simp only [statusLines] at h1
  simp [GetStatusFiles, h1]

theorem forall₂_mem_left {α β : Type} {R : α → β → Prop} {l₁ : List α} {l₂ : List β}
    (h : List.Forall₂ R l₁ l₂) : ∀ a ∈ l₁, ∃ b ∈ l₂, R a b := by
  induction h with
  | nil => intro a ha; cases ha
  | cons hab _ ih =>
    intro a ha
    rcases List.mem_cons.1 ha with rfl | ha
    · exact ⟨_, List.mem_cons_self _ _, hab⟩
    · obtain ⟨b, hb, hr⟩ := ih a ha
      exact ⟨b, List.mem_cons_of_mem _ hb, hr⟩

theorem forall₂_mem_right {α β : Type} {R : α → β → Prop} {l₁ : List α} {l₂ : List β}
    (h : List.Forall₂ R l₁ l₂) : ∀ b ∈ l₂, ∃ a ∈ l₁, R a b := by
  induction h with
  | nil => intro b hb; cases hb
  | cons hab _ ih =>
    intro b hb
    rcases List.mem_cons.1 hb with rfl | hb
    · exact ⟨_, List.mem_cons_self _ _, hab⟩
    · obtain ⟨a, ha, hr⟩ := ih b hb
      exact ⟨a, List.mem_cons_of_mem _ ha, hr⟩

/-! ### Claims on GetStatusFiles -/

/-- C1: when every line of the status text that is not a warning has at least three bytes,
`GetStatusFiles` returns a list that holds, for each such record, a file with that
`DisplayString`, and every returned file carries the flags that the decoding table assigns to
its record. -/
theorem getStatusFiles_decoding_table (c : GitCommand) (opts : GetStatusFileOptions)
    (hwf : ∀ line ∈ statusLines c opts, notWarning line = true → 3 ≤ line.length) :
    ∃ files, GetStatusFiles c opts = some files ∧
      (∀ record ∈ statusLines c opts, notWarning record = true →
        ∃ f ∈ files, f.DisplayString = record ∧ DecodesAs record f) ∧
      (∀ f ∈ files, DecodesAs f.DisplayString f) := by
  obtain ⟨fs, h1, h2⟩ := GetStatusFiles_some c opts hwf
  refine ⟨_, h1, ?_, ?_⟩
  · intro record hmem hnw
    obtain ⟨f, hf, hdec⟩ := forall₂_mem_left h2 record (List.mem_filter.2 ⟨hmem, hnw⟩)
    exact ⟨f, (sortByStaged_perm fs).mem_iff.2 hf, statusFile_decodes c record f hdec⟩
  · intro f hf
    obtain ⟨line, _, hdec⟩ := forall₂_mem_right h2 f ((sortByStaged_perm fs).mem_iff.1 hf)
    have := statusFile_decodes c line f hdec
    rw [this.1]
    exact this.2

/-- C1, witness: the scenario of the spec, `?? newfile.txt` and ` M edited.txt`. -/
theorem getStatusFiles_decoding_table_witness :
    (∀ line ∈ statusLines (sampleCommand scenarioOutput) ⟨false⟩,
      notWarning line = true → 3 ≤ line.length) ∧
    (∃ files, GetStatusFiles (sampleCommand scenarioOutput) ⟨false⟩ = some files ∧
      (∀ record ∈ statusLines (sampleCommand scenarioOutput) ⟨false⟩, notWarning record = true →
        ∃ f ∈ files, f.DisplayString = record ∧ DecodesAs record f) ∧
      (∀ f ∈ files, DecodesAs f.DisplayString f)) ∧
    (GetStatusFiles (sampleCommand scenarioOutput) ⟨false⟩).map
        (fun files => files.map
          (fun f => (f.Name, f.Tracked, f.HasStagedChanges, f.HasUnstagedChanges))) =
      some [(bytes "edited.txt", true, false, true),
            (bytes "newfile.txt", false, false, true)] :=
  ⟨by decide, getStatusFiles_decoding_table _ _ (by decide), by decide⟩

/-- C2: when every line of the status text that is not a warning has at least three bytes,
`GetStatusFiles` returns a list in which no file without staged changes precedes a file with
staged changes and in which, among the files of either group, an earlier name is never
greater (byte-wise) than a later one. -/
theorem getStatusFiles_staged_first_sorted (c : GitCommand) (opts : GetStatusFileOptions)
    (hwf : ∀ line ∈ statusLines c opts, notWarning line = true → 3 ≤ line.length) :
    ∃ files, GetStatusFiles c opts = some files ∧ StagedFirstSorted files := by
  obtain ⟨fs, h1, _⟩ := GetStatusFiles_some c opts hwf
  exact ⟨_, h1, sortByStaged_sorted fs⟩

/-- C2, witness: three records out of order; the staged `c.txt` comes first. -/
theorem getStatusFiles_staged_first_sorted_witness :
    (∀ line ∈ statusLines (sampleCommand unorderedOutput) ⟨false⟩,
      notWarning line = true → 3 ≤ line.length) ∧
    (∃ files, GetStatusFiles (sampleCommand unorderedOutput) ⟨false⟩ = some files ∧
      StagedFirstSorted files) ∧
    (GetStatusFiles (sampleCommand unorderedOutput) ⟨false⟩).map
        (fun files => files.map (fun f => (f.Name, f.HasStagedChanges))) =
      some [(bytes "c.txt", true), (bytes "a.txt", false), (bytes "b.txt", false)] :=
  ⟨by decide, getStatusFiles_staged_first_sorted _ _ (by decide), by decide⟩

/-- C3: when every line of the status text that is not a warning has at least three bytes,
`GetStatusFiles` returns a list in which no `DisplayString` begins with `warning`, every
`DisplayString` is a line of the text, and the number of files is the number of lines that do
not begin with `warning`. -/
theorem getStatusFiles_skips_warnings (c : GitCommand) (opts : GetStatusFileOptions)
    (hwf : ∀ line ∈ statusLines c opts, notWarning line = true → 3 ≤ line.length) :
    ∃ files, GetStatusFiles c opts = some files ∧
      (∀ f ∈ files, f.DisplayString ∈ statusLines c opts ∧
        HasPrefix f.DisplayString (bytes "warning") = false) ∧
      files.length = ((statusLines c opts).filter
        (fun line => !HasPrefix line (bytes "warning"))).length := by
  obtain ⟨fs, h1, h2⟩ := GetStatusFiles_some c opts hwf
  refine ⟨_, h1, ?_, ?_⟩
  · intro f hf
    obtain ⟨line, hl, hdec⟩ := forall₂_mem_right h2 f ((sortByStaged_perm fs).mem_iff.1 hf)
    rw [(statusFile_decodes c line f hdec).1]
    have := List.mem_filter.1 hl
    exact ⟨this.1, by simpa [notWarning] using this.2⟩
  · rw [(sortByStaged_perm fs).length_eq]
    exact h2.length_eq.symm

/-- C3, witness: three lines, one of them a warning, give two files. -/
theorem getStatusFiles_skips_warnings_witness :
    (∀ line ∈ statusLines (sampleCommand warningOutput) ⟨false⟩,
      notWarning line = true → 3 ≤ line.length) ∧
    (statusLines (sampleCommand warningOutput) ⟨false⟩).length = 3 ∧
    ∃ files, GetStatusFiles (sampleCommand warningOutput) ⟨false⟩ = some files ∧
      (∀ f ∈ files, f.DisplayString ∈ statusLines (sampleCommand warningOutput) ⟨false⟩ ∧
        HasPrefix f.DisplayString (bytes "warning") = false) ∧
      files.length = ((statusLines (sampleCommand warningOutput) ⟨false⟩).filter
        (fun line => !HasPrefix line (bytes "warning"))).length :=
  ⟨by decide, by decide, getStatusFiles_skips_warnings _ _ (by decide)⟩

/-- C4: with an empty `oldFiles`, `MergeStatusFiles` returns `newFiles` itself, whatever the
selected file. -/
theorem mergeStatusFiles_empty_old (m : FileMethods) (newFiles : List File)
    (selectedFile : Option File) :
    MergeStatusFiles m [] newFiles selectedFile = newFiles := by
  simp [MergeStatusFiles]

/-- C9 (as the code has it): `GetStatusFiles` returns a list exactly when every line that is
not a warning has at least three bytes; only warning lines are skipped before decoding. -/
theorem getStatusFiles_returns_iff (c : GitCommand) (opts : GetStatusFileOptions) :
    (GetStatusFiles c opts).isSome = true ↔
      ∀ line ∈ statusLines c opts, notWarning line = true → 3 ≤ line.length := by
  constructor
  · intro h
    unfold GetStatusFiles at h
    cases hl : statusLoop c (c.SplitLines (statusOutputOf c opts)) [] with
    | none => simp [hl] at h
    | some out => exact statusLoop_wellformed c _ [] out hl
  · intro h
    obtain ⟨fs, h1, _⟩ := GetStatusFiles_some c opts h
    rw [h1]; rfl

/-- C9, counterexample: the status text `M` has one line, which is not a warning and has
fewer than three bytes; it reaches the decoding step and `statusString[0:2]` panics. -/
theorem getStatusFiles_short_line_panics :
    statusLines (sampleCommand (bytes "M")) ⟨false⟩ = [bytes "M"] ∧
    HasPrefix (bytes "M") (bytes "warning") = false ∧
    slice (bytes "M") 0 2 = none ∧
    GetStatusFiles (sampleCommand (bytes "M")) ⟨false⟩ = none := by
  decide

/-! ### The loops of MergeStatusFiles -/

theorem pickedBy_append_index (m : FileMethods) (sel : Option File) (o : File)
    (appended : List Nat) (k : Nat) (rest : List File) :
    pickedBy m sel o (appended ++ [k]) (k + 1) rest = pickedBy m sel o appended (k + 1) rest := by
  unfold pickedBy
  apply List.filter_congr
  intro p hp
  have hle : k + 1 ≤ p.1 := List.le_fst_of_mem_enumFrom hp
  have hne : ¬ p.1 = k := by omega
  simp [IncludesInt_eq, hne]

theorem mergeInner_eq (m : FileMethods) (sel : Option File) (o : File) :
    ∀ (rest : List File) (k : Nat) (st : MergeState),
      mergeInner m sel o k rest st =
        { result := st.result ++ (pickedBy m sel o st.appendedIndexes k rest).map Prod.snd
          appendedIndexes :=
            st.appendedIndexes ++ (pickedBy m sel o st.appendedIndexes k rest).map Prod.fst } := by
  intro rest
  induction rest with
  | nil => intro k st; simp [mergeInner, pickedBy]
  | cons f rest ih =>
    intro k st
    unfold mergeInner
    by_cases h1 : IncludesInt st.appendedIndexes k = true
    · rw [if_pos h1, ih]
      simp [pickedBy, h1]
    · have h1f : IncludesInt st.appendedIndexes k = false := by simpa using h1
      rw [if_neg h1]
      by_cases h2 : (m.Matches o f && !waitForMatchingFile m sel o f) = true
      · rw [if_pos h2, ih]
        simp only [pickedBy_append_index]
        simp only [pickedBy, List.enumFrom_cons, List.filter_cons, h1f, h2, Bool.not_false,
          Bool.and_self, if_true, List.map_cons, List.append_assoc, List.singleton_append]
      · have h2f : (m.Matches o f && !waitForMatchingFile m sel o f) = false := by simpa using h2
        rw [if_neg h2, ih]
        simp [pickedBy, h1f, h2f]

theorem mem_pickedBy {m : FileMethods} {sel : Option File} {o : File} {appended : List Nat}
    {newFiles : List File} {p : Nat × File} :
    p ∈ pickedBy m sel o appended 0 newFiles ↔
      newFiles[p.1]? = some p.2 ∧ p.1 ∉ appended ∧ m.Matches o p.2 = true ∧
        waitForMatchingFile m sel o p.2 = false := by
  obtain ⟨i, f⟩ := p
  simp only [pickedBy, List.mem_filter, List.mk_mem_enumFrom_iff_le_and_getElem?_sub,
    IncludesInt_eq, Bool.and_eq_true, Bool.not_eq_true', decide_eq_false_iff_not]
  simp

theorem pickedBy_fst_nodup (m : FileMethods) (sel : Option File) (o : File)
    (appended : List Nat) (k : Nat) (rest : List File) :
    ((pickedBy m sel o appended k rest).map Prod.fst).Nodup := by
  have hsub : ((pickedBy m sel o appended k rest).map Prod.fst).Sublist
      ((rest.enumFrom k).map Prod.fst) := (List.filter_sublist _).map _
  rw [List.enumFrom_map_fst] at hsub
  exact hsub.nodup (List.nodup_range' _ _)

theorem pickedBy_forall₂ (m : FileMethods) (sel : Option File) (o : File)
    (appended : List Nat) (newFiles : List File) :
    List.Forall₂ (fun f i => newFiles[i]? = some f)
      ((pickedBy m sel o appended 0 newFiles).map Prod.snd)
      ((pickedBy m sel o appended 0 newFiles).map Prod.fst) := by
  rw [List.forall₂_map_left_iff, List.forall₂_map_right_iff, List.forall₂_same]
  intro p hp
  exact (mem_pickedBy.1 hp).1

theorem forall₂_append' {α β : Type} {R : α → β → Prop} {l₁ l₁' : List α} {l₂ l₂' : List β}
    (h : List.Forall₂ R l₁ l₂) (h' : List.Forall₂ R l₁' l₂') :
    List.Forall₂ R (l₁ ++ l₁') (l₂ ++ l₂') := by
  induction h with
  | nil => simpa using h'
  | cons hab _ ih => exact List.Forall₂.cons hab ih

theorem mergeInner_inv (m : FileMethods) (sel : Option File) (o : File) (newFiles : List File)
    (st : MergeState) (h : MergeInv newFiles st) :
    MergeInv newFiles (mergeInner m sel o 0 newFiles st) := by
  rw [mergeInner_eq]
  refine ⟨?_, forall₂_append' h.2 (pickedBy_forall₂ m sel o _ newFiles)⟩
  refine List.Nodup.append h.1 (pickedBy_fst_nodup m sel o _ 0 newFiles) ?_
  intro i hi hi'
  obtain ⟨p, hp, rfl⟩ := List.mem_map.1 hi'
  exact (mem_pickedBy.1 hp).2.1 hi

theorem mergeOuter_inv (m : FileMethods) (sel : Option File) (newFiles : List File) :
    ∀ (oldFiles : List File) (st : MergeState), MergeInv newFiles st →
      MergeInv newFiles (mergeOuter m sel newFiles oldFiles st) := by
  intro oldFiles
  induction oldFiles with
  | nil => intro st h; exact h
  | cons o rest ih => intro st h; exact ih _ (mergeInner_inv m sel o newFiles st h)

theorem mem_mergeInner_indexes (m : FileMethods) (sel : Option File) (o : File)
    (newFiles : List File) (st : MergeState) (i : Nat) :
    i ∈ (mergeInner m sel o 0 newFiles st).appendedIndexes ↔
      i ∈ st.appendedIndexes ∨ ∃ f, newFiles[i]? = some f ∧ m.Matches o f = true ∧
        waitForMatchingFile m sel o f = false := by
  rw [mergeInner_eq]
  simp only [List.mem_append, List.mem_map]
  constructor
  · rintro (h | ⟨p, hp, rfl⟩)
    · exact Or.inl h
    · have := mem_pickedBy.1 hp
      exact Or.inr ⟨p.2, this.1, this.2.2⟩
  · rintro (h | ⟨f, hf, hm, hw⟩)
    · exact Or.inl h
    · by_cases hi : i ∈ st.appendedIndexes
      · exact Or.inl hi
      · exact Or.inr ⟨(i, f), mem_pickedBy.2 ⟨hf, hi, hm, hw⟩, rfl⟩

theorem mem_mergeOuter_indexes (m : FileMethods) (sel : Option File) (newFiles : List File)
    (i : Nat) : ∀ (oldFiles : List File) (st : MergeState),
    i ∈ (mergeOuter m sel newFiles oldFiles st).appendedIndexes ↔
      i ∈ st.appendedIndexes ∨ ∃ o ∈ oldFiles, ∃ f, newFiles[i]? = some f ∧
        m.Matches o f = true ∧ waitForMatchingFile m sel o f = false := by
  intro oldFiles
  induction oldFiles with
  | nil => intro st; simp [mergeOuter]
  | cons o rest ih =>
    intro st
    simp only [mergeOuter, ih, mem_mergeInner_indexes, List.mem_cons]
    constructor
    · rintro ((h | h) | ⟨o', ho', h⟩)
      · exact Or.inl h
      · exact Or.inr ⟨o, Or.inl rfl, h⟩
      · exact Or.inr ⟨o', Or.inr ho', h⟩
    · rintro (h | ⟨o', rfl | ho', h⟩)
      · exact Or.inl (Or.inl h)
      · exact Or.inl (Or.inr h)
      · exact Or.inr ⟨o', ho', h⟩

theorem forall₂_enum_indexes (l : List File) :
    List.Forall₂ (fun f i => l[i]? = some f) l (List.range l.length) := by
  have h : List.Forall₂ (fun f i => l[i]? = some f) (l.enum.map Prod.snd)
      (l.enum.map Prod.fst) := by
    rw [List.forall₂_map_left_iff, List.forall₂_map_right_iff, List.forall₂_same]
    rintro ⟨i, f⟩ hp
    simpa [List.enum, List.mk_mem_enumFrom_iff_le_and_getElem?_sub] using hp
  rwa [List.enum_map_snd, List.enum_map_fst] at h

theorem forall₂_indexes_filterMap {l res : List File} {idxs : List Nat}
    (h : List.Forall₂ (fun f i => l[i]? = some f) res idxs) :
    idxs.filterMap (fun i => l[i]?) = res := by
  induction h with
  | nil => rfl
  | cons hab _ ih => simp [List.filterMap_cons, hab, ih]

theorem subperm_of_indexes {l res : List File} {idxs : List Nat} (hn : idxs.Nodup)
    (h : List.Forall₂ (fun f i => l[i]? = some f) res idxs) : res.Subperm l := by
  have hsub : idxs ⊆ List.range l.length := by
    intro i hi
    obtain ⟨f, _, hf⟩ := forall₂_mem_right h i hi
    have : i < l.length := by
      by_contra hlt
      rw [List.getElem?_eq_none (by omega)] at hf
      cases hf
    exact List.mem_range.2 this
  obtain ⟨l', hperm, hsl⟩ := hn.subperm hsub
  refine ⟨l'.filterMap (fun i => l[i]?), ?_, ?_⟩
  · rw [← forall₂_indexes_filterMap h]
    exact hperm.filterMap _
  · have := hsl.filterMap (fun i => l[i]?)
    rwa [forall₂_indexes_filterMap (forall₂_enum_indexes l)] at this

theorem mergeOuter_inv_init (m : FileMethods) (sel : Option File)
    (oldFiles newFiles : List File) :
    MergeInv newFiles
      (mergeOuter m sel newFiles oldFiles { result := [], appendedIndexes := [] }) :=
  mergeOuter_inv m sel newFiles oldFiles _ ⟨List.nodup_nil, List.Forall₂.nil⟩

/-- The entries of `MergeStatusFiles` sit at pairwise distinct positions of `newFiles`. -/
theorem mergeStatusFiles_indexes (m : FileMethods) (oldFiles newFiles : List File)
    (selectedFile : Option File) :
    ∃ idxs : List Nat, idxs.Nodup ∧ List.Forall₂ (fun f i => newFiles[i]? = some f)
      (MergeStatusFiles m oldFiles newFiles selectedFile) idxs := by
  unfold MergeStatusFiles
  by_cases h : oldFiles.length = 0
  · rw [if_pos h]
    exact ⟨List.range newFiles.length, List.nodup_range _, forall₂_enum_indexes newFiles⟩
  · rw [if_neg h]
    have hinv := mergeOuter_inv_init m selectedFile oldFiles newFiles
    obtain ⟨idxs, h1, h2⟩ := List.perm_comp_forall₂ (sortByStaged_perm _) hinv.2
    exact ⟨idxs, (h2.nodup_iff).2 hinv.1, h1⟩

/-- C5: every entry of the result of `MergeStatusFiles` is the entry of `newFiles` at some
position, no position is used twice, so the result is a permutation of a sublist of
`newFiles` and is not longer than `newFiles`. -/
theorem mergeStatusFiles_selects_from_new (m : FileMethods) (oldFiles newFiles : List File)
    (selectedFile : Option File) :
    (∃ idxs : List Nat, idxs.Nodup ∧ List.Forall₂ (fun f i => newFiles[i]? = some f)
      (MergeStatusFiles m oldFiles newFiles selectedFile) idxs) ∧
    (∃ sub, sub.Sublist newFiles ∧ (MergeStatusFiles m oldFiles newFiles selectedFile).Perm sub) ∧
    (MergeStatusFiles m oldFiles newFiles selectedFile).length ≤ newFiles.length := by
  obtain ⟨idxs, hn, hf⟩ := mergeStatusFiles_indexes m oldFiles newFiles selectedFile
  have hsub := subperm_of_indexes hn hf
  refine ⟨⟨idxs, hn, hf⟩, ?_, hsub.length_le⟩
  obtain ⟨sub, hperm, hsl⟩ := hsub
  exact ⟨sub, hsl, hperm.symm⟩

theorem stagedFirstSorted_unique {l₁ l₂ : List File} (h₁ : StagedFirstSorted l₁)
    (h₂ : StagedFirstSorted l₂) (hp : l₁.Perm l₂) (hn : (l₁.map (fun f => f.Name)).Nodup) :
    l₁ = l₂ := by
  refine List.Perm.eq_of_sorted ?_ h₁ h₂ hp
  intro a b ha hb hab hba
  have hb' : b ∈ l₁ := hp.mem_iff.2 hb
  have hflag : a.HasStagedChanges = b.HasStagedChanges := by
    have h1 := hab.1
    have h2 := hba.1
    cases ha' : a.HasStagedChanges <;> cases hb'' : b.HasStagedChanges <;> simp_all
  have hname : a.Name = b.Name := strLess_antisymm _ _ (hba.2 hflag.symm) (hab.2 hflag)
  exact List.inj_on_of_nodup_map hn ha hb' hname

theorem waitForMatchingFile_self (m : FileMethods) (sel : Option File) (f : File) :
    waitForMatchingFile m sel f f = false := by
  cases sel with
  | none => rfl
  | some s =>
    simp only [waitForMatchingFile]
    cases m.Matches f s <;> simp

theorem getElem?_inj_of_nodup_names {l : List File} (hn : (l.map (fun f => f.Name)).Nodup)
    {i j : Nat} {f : File} (hi : l[i]? = some f) (hj : l[j]? = some f) : i = j := by
  have hnd : l.Nodup := List.Nodup.of_map _ hn
  obtain ⟨hi', hi''⟩ := List.getElem?_eq_some_iff.1 hi
  obtain ⟨hj', hj''⟩ := List.getElem?_eq_some_iff.1 hj
  exact (List.Nodup.getElem_inj_iff hnd).1 (hi''.trans hj''.symm)

theorem perm_of_same_indexes {l res₁ res₂ : List File} {idx₁ idx₂ : List Nat}
    (hn₁ : idx₁.Nodup) (hn₂ : idx₂.Nodup)
    (hf₁ : List.Forall₂ (fun f i => l[i]? = some f) res₁ idx₁)
    (hf₂ : List.Forall₂ (fun f i => l[i]? = some f) res₂ idx₂)
    (h : ∀ i, i ∈ idx₁ ↔ i ∈ idx₂) : res₁.Perm res₂ := by
  rw [← forall₂_indexes_filterMap hf₁, ← forall₂_indexes_filterMap hf₂]
  exact ((List.perm_ext_iff_of_nodup hn₁ hn₂).2 h).filterMap _

/-- The match pass over a list `r` of entries of `newFiles` returns the entries of `r` again,
up to order, when every file matches itself, the names of `newFiles` are pairwise distinct
and no entry of `r` matches an entry of `newFiles` outside `r`. -/
theorem mergeOuter_perm_of_closed (m : FileMethods) (sel : Option File)
    (newFiles r : List File) (idxs : List Nat) (hn : idxs.Nodup)
    (hf : List.Forall₂ (fun f i => newFiles[i]? = some f) r idxs)
    (hrefl : ∀ f, m.Matches f f = true)
    (hnames : (newFiles.map (fun f => f.Name)).Nodup)
    (hclosed : ∀ x ∈ r, ∀ y ∈ newFiles, m.Matches x y = true → y ∈ r) :
    (mergeOuter m sel newFiles r { result := [], appendedIndexes := [] }).result.Perm r := by
  have hinv := mergeOuter_inv_init m sel r newFiles
  refine perm_of_same_indexes hinv.1 hn hinv.2 hf ?_
  intro i
  rw [mem_mergeOuter_indexes]
  constructor
  · rintro (h | ⟨o, ho, f, hfi, hm, _⟩)
    · cases h
    · have hfnew : f ∈ newFiles := List.getElem?_mem hfi
      have hfr : f ∈ r := hclosed o ho f hfnew hm
      obtain ⟨j, hj, hfj⟩ := forall₂_mem_left hf f hfr
      rw [getElem?_inj_of_nodup_names hnames hfi hfj]
      exact hj
  · intro hi
    obtain ⟨f, hfr, hfi⟩ := forall₂_mem_right hf i hi
    exact Or.inr ⟨f, hfr, f, hfi, hrefl f, waitForMatchingFile_self m sel f⟩

/-! ### The merge-base resolver -/

/-- C10: `getMergeBase` returns an error exactly when the resolution of the current branch
name fails, and then the commit is the empty string; when the resolution succeeds and the
merge-base command fails, the result is the empty string with no error. -/
theorem getMergeBase_error_iff (b : CommitListBuilder) (ref : GoString) :
    ((getMergeBase b ref).2.isSome = true ↔ (CurrentBranchName b).2.isSome = true) ∧
    ((CurrentBranchName b).2.isSome = true → (getMergeBase b ref).1 = bytes "") ∧
    ((CurrentBranchName b).2 = none →
      (b.run (bytes "git")
        [bytes "merge-base", ref, baseBranchOf b (CurrentBranchName b).1]).2.isSome = true →
      getMergeBase b ref = (bytes "", none)) := by
  unfold getMergeBase
  rcases hb : CurrentBranchName b with ⟨branch, _ | err⟩
  · rcases hr : b.run (bytes "git") [bytes "merge-base", ref, baseBranchOf b branch] with
      ⟨out, _ | e⟩
    · simp [hr]
    · simp [hr]
  · simp

/-- C10, witness: the scenarios of the test in which the branch resolution fails and in which
only the merge-base command fails. -/
theorem getMergeBase_error_iff_witness :
    getMergeBase ⟨scenarioRunner (bytes "", some (bytes "exit status 1"))
        (bytes "", some (bytes "exit status 1")), [bytes "master"]⟩ (bytes "HEAD") =
      (bytes "", some (bytes "exit status 1")) ∧
    getMergeBase ⟨scenarioRunner (bytes "master\n", none)
        (bytes "", some (bytes "exit status 1")), [bytes "master"]⟩ (bytes "HEAD") =
      (bytes "", none) :=
  ⟨by decide,
   (getMergeBase_error_iff ⟨scenarioRunner (bytes "master\n", none)
        (bytes "", some (bytes "exit status 1")), [bytes "master"]⟩ (bytes "HEAD")).2.2
      (by decide) (by decide)⟩

/-! ### Reconciling with the rename-aware matching -/

theorem splitSep_ne_nil (sep : GoString) : ∀ (s : GoString) (skip : Nat) (cur : GoString),
    splitSep sep s skip cur ≠ [] := by
  intro s
  induction s with
  | nil => intro skip cur; simp [splitSep]
  | cons b rest ih =>
    intro skip cur
    cases skip with
    | zero =>
      unfold splitSep
      split
      · simp
      · exact ih _ _
    | succ k => unfold splitSep; exact ih _ _

theorem renameMethods_matches_self (f : File) : renameMethods.Matches f f = true := by
  simp only [renameMethods, Names, List.any_eq_true]
  cases h : splitSep (bytes " -> ") f.Name 0 [] with
  | nil => exact absurd h (splitSep_ne_nil _ _ _ _)
  | cons n rest =>
    exact ⟨n, List.mem_cons_self _ _, n, List.mem_cons_self _ _, by simp⟩

/-- C6, counterexample: the old list shows `a.txt` before `b.txt`; after `b.txt` is staged
the match pass keeps `a.txt` first (old positions 0 and 1), and the list returned by
`MergeStatusFiles`, the result of `sortByStaged`, has `b.txt` first. -/
theorem mergeStatusFiles_order_not_retained :
    ((mergeOuter renameMethods none (statusFilesOf "M  b.txt\n M a.txt\n")
        (recordFiles [" M a.txt", " M b.txt"])
        { result := [], appendedIndexes := [] }).result.map (fun f => f.DisplayString) =
      [bytes " M a.txt", bytes "M  b.txt"]) ∧
    ((MergeStatusFiles renameMethods (recordFiles [" M a.txt", " M b.txt"])
        (statusFilesOf "M  b.txt\n M a.txt\n") none).map (fun f => f.DisplayString) =
      [bytes "M  b.txt", bytes " M a.txt"]) := by
  decide

/-- C7, counterexample: (1) the old entry `x.txt` matches nothing in the new list, the first
call returns the empty list and the second call, with an empty old list, returns the whole
new list; (2) the old entry `b.txt` matches the rename `a.txt -> b.txt` only, the first call
returns the rename, which in the second call also matches `a.txt`. -/
theorem mergeStatusFiles_twice_differs :
    (MergeStatusFiles renameMethods (recordFiles [" M x.txt"]) (statusFilesOf " M y.txt\n") none
        = [] ∧
      MergeStatusFiles renameMethods
        (MergeStatusFiles renameMethods (recordFiles [" M x.txt"])
          (statusFilesOf " M y.txt\n") none)
        (statusFilesOf " M y.txt\n") none = statusFilesOf " M y.txt\n" ∧
      statusFilesOf " M y.txt\n" ≠ []) ∧
    ((MergeStatusFiles renameMethods (recordFiles ["?? b.txt"])
        (statusFilesOf "R  a.txt -> b.txt\n?? a.txt\n") none).length = 1 ∧
      (MergeStatusFiles renameMethods
        (MergeStatusFiles renameMethods (recordFiles ["?? b.txt"])
          (statusFilesOf "R  a.txt -> b.txt\n?? a.txt\n") none)
        (statusFilesOf "R  a.txt -> b.txt\n?? a.txt\n") none).length = 2) := by
  decide

/-- C8, counterexample: the single old entry, the rename `a.txt -> b.txt`, matches both new
entries `a.txt` and `b.txt`; the result has two entries for one old entry. -/
theorem mergeStatusFiles_longer_than_old :
    (recordFiles ["R  a.txt -> b.txt"]).length = 1 ∧
    (MergeStatusFiles renameMethods (recordFiles ["R  a.txt -> b.txt"])
      (statusFilesOf " D a.txt\n?? b.txt\n") none).map (fun f => f.DisplayString) =
      [bytes " D a.txt", bytes "?? b.txt"] := by
  decide

theorem GetStatusFiles_sorted (c : GitCommand) (opts : GetStatusFileOptions)
    (files : List File) (h : GetStatusFiles c opts = some files) : StagedFirstSorted files := by
  unfold GetStatusFiles at h
  cases hl : statusLoop c (c.SplitLines (statusOutputOf c opts)) [] with
  | none => simp [hl] at h
  | some out =>
    simp only [hl, Option.some.injEq] at h
    rw [← h]
    exact sortByStaged_sorted out

theorem mergeStatusFiles_sorted_of_sorted (m : FileMethods) (oldFiles newFiles : List File)
    (sel : Option File) (h : StagedFirstSorted newFiles) :
    StagedFirstSorted (MergeStatusFiles m oldFiles newFiles sel) := by
  unfold MergeStatusFiles
  split
  · exact h
  · exact sortByStaged_sorted _

theorem names_nodup_of_indexes {l res : List File} {idxs : List Nat} (hn : idxs.Nodup)
    (hf : List.Forall₂ (fun f i => l[i]? = some f) res idxs)
    (hnames : (l.map (fun f => f.Name)).Nodup) : (res.map (fun f => f.Name)).Nodup := by
  obtain ⟨sub, hperm, hsl⟩ := subperm_of_indexes hn hf
  exact ((hperm.map _).nodup_iff).1 ((hsl.map _).nodup hnames)

/-- C7 (as the code has it): for `newFiles` returned by `GetStatusFiles` with pairwise
distinct names, when every file matches itself, the first result `r` is not empty and no entry
of `r` matches an entry of `newFiles` outside `r`, the second call returns `r`. -/
theorem mergeStatusFiles_twice (c : GitCommand) (opts : GetStatusFileOptions)
    (m : FileMethods) (oldFiles newFiles : List File) (selectedFile : Option File)
    (hnew : GetStatusFiles c opts = some newFiles)
    (hnames : (newFiles.map (fun f => f.Name)).Nodup)
    (hrefl : ∀ f, m.Matches f f = true)
    (hne : MergeStatusFiles m oldFiles newFiles selectedFile ≠ [])
    (hclosed : ∀ x ∈ MergeStatusFiles m oldFiles newFiles selectedFile, ∀ y ∈ newFiles,
      m.Matches x y = true → y ∈ MergeStatusFiles m oldFiles newFiles selectedFile) :
    MergeStatusFiles m (MergeStatusFiles m oldFiles newFiles selectedFile) newFiles selectedFile
      = MergeStatusFiles m oldFiles newFiles selectedFile := by
  obtain ⟨idxs, hn, hf⟩ := mergeStatusFiles_indexes m oldFiles newFiles selectedFile
  have hsorted := mergeStatusFiles_sorted_of_sorted m oldFiles newFiles selectedFile
    (GetStatusFiles_sorted c opts newFiles hnew)
  generalize MergeStatusFiles m oldFiles newFiles selectedFile = r at *
  have hperm := mergeOuter_perm_of_closed m selectedFile newFiles r idxs hn hf hrefl hnames hclosed
  have hlen : ¬ r.length = 0 := fun h => hne (List.length_eq_zero.1 h)
  have hcall : MergeStatusFiles m r newFiles selectedFile =
      sortByStaged (mergeOuter m selectedFile newFiles r
        { result := [], appendedIndexes := [] }).result := by
    unfold MergeStatusFiles
    rw [if_neg hlen]
  rw [hcall]
  have hp : (sortByStaged (mergeOuter m selectedFile newFiles r
      { result := [], appendedIndexes := [] }).result).Perm r :=
    (sortByStaged_perm _).trans hperm
  refine stagedFirstSorted_unique (sortByStaged_sorted _) hsorted hp ?_
  exact ((hp.map _).nodup_iff).2 (names_nodup_of_indexes hn hf hnames)

/-- C7, witness: `c.txt` is new and matched by no old entry; both calls return `b.txt`,
`a.txt`. -/
theorem mergeStatusFiles_twice_witness :
    GetStatusFiles (sampleCommand (bytes "M  b.txt\n M a.txt\n?? c.txt\n")) ⟨false⟩ =
      some (statusFilesOf "M  b.txt\n M a.txt\n?? c.txt\n") ∧
    ((statusFilesOf "M  b.txt\n M a.txt\n?? c.txt\n").map (fun f => f.Name)).Nodup ∧
    (MergeStatusFiles renameMethods (recordFiles [" M a.txt", " M b.txt"])
      (statusFilesOf "M  b.txt\n M a.txt\n?? c.txt\n") none).map (fun f => f.DisplayString) =
        [bytes "M  b.txt", bytes " M a.txt"] ∧
    MergeStatusFiles renameMethods
      (MergeStatusFiles renameMethods (recordFiles [" M a.txt", " M b.txt"])
        (statusFilesOf "M  b.txt\n M a.txt\n?? c.txt\n") none)
      (statusFilesOf "M  b.txt\n M a.txt\n?? c.txt\n") none
      = MergeStatusFiles renameMethods (recordFiles [" M a.txt", " M b.txt"])
        (statusFilesOf "M  b.txt\n M a.txt\n?? c.txt\n") none :=
  ⟨by decide, by decide, by decide,
   mergeStatusFiles_twice (sampleCommand (bytes "M  b.txt\n M a.txt\n?? c.txt\n")) ⟨false⟩
     renameMethods (recordFiles [" M a.txt", " M b.txt"])
     (statusFilesOf "M  b.txt\n M a.txt\n?? c.txt\n") none
     (by decide) (by decide) renameMethods_matches_self (by decide) (by decide)⟩

/-- C8 (as the code has it): for each old entry the inner loop appends every entry of
`newFiles` that is not yet consumed, that the old entry matches and that is not deferred, not
only the first one; the result of `MergeStatusFiles` has at most `len(newFiles)` entries. -/
theorem mergeStatusFiles_appends_every_match (m : FileMethods) (oldFiles newFiles : List File)
    (selectedFile : Option File) :
    (∀ (oldFile : File) (st : MergeState),
      mergeInner m selectedFile oldFile 0 newFiles st =
        { result := st.result ++
            (pickedBy m selectedFile oldFile st.appendedIndexes 0 newFiles).map Prod.snd
          appendedIndexes := st.appendedIndexes ++
            (pickedBy m selectedFile oldFile st.appendedIndexes 0 newFiles).map Prod.fst }) ∧
    (MergeStatusFiles m oldFiles newFiles selectedFile).length ≤ newFiles.length := by
  refine ⟨fun oldFile st => mergeInner_eq m selectedFile oldFile newFiles 0 st, ?_⟩
  obtain ⟨idxs, hn, hf⟩ := mergeStatusFiles_indexes m oldFiles newFiles selectedFile
  exact (subperm_of_indexes hn hf).length_le


/-! ### Stability of sortByStaged -/

theorem insertionSort_filter_sameName (n : GoString) (p : File → Bool)
    (hp : ∀ f, p f = true → f.Name = n) (l : List File) :
    (List.insertionSort nameLE l).filter p = l.filter p := by
  have hpair : (l.filter p).Pairwise nameLE := by
    rw [List.pairwise_iff_forall_sublist]
    intro a b hab
    have ha : a ∈ l.filter p := hab.subset (by simp)
    have hb : b ∈ l.filter p := hab.subset (by simp)
    have hna := hp a (List.mem_filter.1 ha).2
    have hnb := hp b (List.mem_filter.1 hb).2
    show strLess b.Name a.Name = false
    rw [hna, hnb]
    exact strLess_irrefl n
  have hsub : (l.filter p).Sublist (List.insertionSort nameLE l) :=
    List.sublist_insertionSort hpair (List.filter_sublist l)
  have hsub2 : (l.filter p).Sublist ((List.insertionSort nameLE l).filter p) := by
    have := hsub.filter p
    simpa [List.filter_filter] using this
  have hlen : ((List.insertionSort nameLE l).filter p).length = (l.filter p).length :=
    ((List.perm_insertionSort nameLE l).filter p).length_eq
  exact (hsub2.eq_of_length hlen.symm).symm

theorem withKey_sortByStaged (s : Bool) (n : GoString) (files : List File) :
    withKey s n (sortByStaged files) = withKey s n files := by
  have hp : ∀ f : File, (f.HasStagedChanges == s && f.Name == n) = true → f.Name = n := by
    intro f hf
    simp only [Bool.and_eq_true, beq_iff_eq] at hf
    exact hf.2
  unfold withKey
  rw [sortByStaged_eq, List.filter_append, insertionSort_filter_sameName n _ hp,
    insertionSort_filter_sameName n _ hp, List.filter_filter, List.filter_filter]
  cases s
  · have h1 : (fun a : File => (a.HasStagedChanges == false && a.Name == n) &&
        a.HasStagedChanges) = fun _ => false := by
      funext a; cases a.HasStagedChanges <;> simp
    have h2 : (fun a : File => (a.HasStagedChanges == false && a.Name == n) &&
        !a.HasStagedChanges) = fun a => (a.HasStagedChanges == false && a.Name == n) := by
      funext a; cases a.HasStagedChanges <;> simp
    rw [h1, h2]
    simp
  · have h1 : (fun a : File => (a.HasStagedChanges == true && a.Name == n) &&
        a.HasStagedChanges) = fun a => (a.HasStagedChanges == true && a.Name == n) := by
      funext a; cases a.HasStagedChanges <;> simp
    have h2 : (fun a : File => (a.HasStagedChanges == true && a.Name == n) &&
        !a.HasStagedChanges) = fun _ => false := by
      funext a; cases a.HasStagedChanges <;> simp
    rw [h1, h2]
    simp

/-- C17: the output of `sortByStaged` is a permutation of its input, of the same length, and
for every staged flag and every name the entries with that flag and that name stand in the
output in the order they have in the input. -/
theorem sortByStaged_stable (files : List File) :
    (sortByStaged files).Perm files ∧ (sortByStaged files).length = files.length ∧
    ∀ (s : Bool) (n : GoString), withKey s n (sortByStaged files) = withKey s n files :=
  ⟨sortByStaged_perm files, (sortByStaged_perm files).length_eq,
    fun s n => withKey_sortByStaged s n files⟩

/-! ### Presentation and content of the reconciled list -/

/-- C15 (as the code has it): with a non-empty `oldFiles`, or with `newFiles` already in
staged-first, name-sorted presentation, the list returned by `MergeStatusFiles` is in that
presentation. -/
theorem mergeStatusFiles_presentation (m : FileMethods) (oldFiles newFiles : List File)
    (selectedFile : Option File) (h : oldFiles ≠ [] ∨ StagedFirstSorted newFiles) :
    StagedFirstSorted (MergeStatusFiles m oldFiles newFiles selectedFile) := by
  unfold MergeStatusFiles
  by_cases h0 : oldFiles.length = 0
  · rw [if_pos h0]
    rcases h with h | h
    · exact absurd (List.length_eq_zero.1 h0) h
    · exact h
  · rw [if_neg h0]
    exact sortByStaged_sorted _

/-- C15, witness: a non-empty old list whose order differs from the presentation. -/
theorem mergeStatusFiles_presentation_witness :
    (recordFiles [" M b.txt", " M a.txt"] ≠ [] ∨
      StagedFirstSorted (recordFiles [" M b.txt", " M a.txt"])) ∧
    StagedFirstSorted (MergeStatusFiles renameMethods (recordFiles [" M b.txt", " M a.txt"])
      (recordFiles [" M b.txt", " M a.txt"]) none) :=
  ⟨by decide, mergeStatusFiles_presentation renameMethods _ _ none (by decide)⟩

/-- C15, counterexample: with an empty old list the new list `b.txt`, `a.txt` is returned as
it is, `b.txt` before `a.txt`. -/
theorem mergeStatusFiles_empty_old_unsorted :
    (MergeStatusFiles renameMethods [] (recordFiles [" M b.txt", " M a.txt"]) none).map
        (fun f => f.DisplayString) = [bytes " M b.txt", bytes " M a.txt"] ∧
    ¬ StagedFirstSorted
      (MergeStatusFiles renameMethods [] (recordFiles [" M b.txt", " M a.txt"]) none) := by
  decide

theorem mem_mergeOuter_result (m : FileMethods) (sel : Option File)
    (oldFiles newFiles : List File) (f : File)
    (h : f ∈ (mergeOuter m sel newFiles oldFiles { result := [], appendedIndexes := [] }).result) :
    ∃ o ∈ oldFiles, m.Matches o f = true ∧ waitForMatchingFile m sel o f = false := by
  obtain ⟨i, hi, hfi⟩ := forall₂_mem_left (mergeOuter_inv_init m sel oldFiles newFiles).2 f h
  rcases (mem_mergeOuter_indexes m sel newFiles i oldFiles _).1 hi with h0 | ⟨o, ho, g, hg, hm, hw⟩
  · cases h0
  · rw [hfi] at hg
    cases hg
    exact ⟨o, ho, hm, hw⟩

/-- C16: with a non-empty `oldFiles`, an entry of `newFiles` that no entry of `oldFiles`
matches is not in the result of `MergeStatusFiles`. -/
theorem mergeStatusFiles_drops_unmatched (m : FileMethods) (oldFiles newFiles : List File)
    (selectedFile : Option File) (f : File) (hne : oldFiles ≠ []) (hf : f ∈ newFiles)
    (hno : ∀ o ∈ oldFiles, m.Matches o f = false) :
    f ∈ newFiles ∧ f ∉ MergeStatusFiles m oldFiles newFiles selectedFile := by
  refine ⟨hf, fun hmem => ?_⟩
  unfold MergeStatusFiles at hmem
  rw [if_neg (fun h0 => hne (List.length_eq_zero.1 h0))] at hmem
  have hres := (sortByStaged_perm _).mem_iff.1 hmem
  obtain ⟨o, ho, hm, _⟩ := mem_mergeOuter_result m selectedFile oldFiles newFiles f hres
  rw [hno o ho] at hm
  cases hm

/-- C16, witness: `c.txt` is new since the old list `a.txt`; it is left out. -/
theorem mergeStatusFiles_drops_unmatched_witness :
    (recordFiles ["?? c.txt"]).length = 1 ∧
    ∀ f ∈ recordFiles ["?? c.txt"],
      f ∈ statusFilesOf " M a.txt\n?? c.txt\n" ∧
      f ∉ MergeStatusFiles renameMethods (recordFiles [" M a.txt"])
        (statusFilesOf " M a.txt\n?? c.txt\n") none :=
  ⟨by decide,
   fun f hf => mergeStatusFiles_drops_unmatched renameMethods (recordFiles [" M a.txt"])
    (statusFilesOf " M a.txt\n?? c.txt\n") none f (by decide)
    ((by decide : ∀ f ∈ recordFiles ["?? c.txt"],
      f ∈ statusFilesOf " M a.txt\n?? c.txt\n") f hf)
    ((by decide : ∀ f ∈ recordFiles ["?? c.txt"], ∀ o ∈ recordFiles [" M a.txt"],
      renameMethods.Matches o f = false) f hf)⟩

/-- C19: when every file matches itself, a list with pairwise distinct names that is in
staged-first, name-sorted presentation is returned unchanged by `MergeStatusFiles` against
itself, whatever the selected file. -/
theorem mergeStatusFiles_fixed_point (m : FileMethods) (files : List File)
    (selectedFile : Option File) (hrefl : ∀ f, m.Matches f f = true)
    (hnames : (files.map (fun f => f.Name)).Nodup) (hsorted : StagedFirstSorted files) :
    MergeStatusFiles m files files selectedFile = files := by
  unfold MergeStatusFiles
  by_cases h0 : files.length = 0
  · rw [if_pos h0]
  · rw [if_neg h0]
    have hperm := mergeOuter_perm_of_closed m selectedFile files files (List.range files.length)
      (List.nodup_range _) (forall₂_enum_indexes files) hrefl hnames (fun _ _ y hy _ => hy)
    have hp := (sortByStaged_perm _).trans hperm
    exact stagedFirstSorted_unique (sortByStaged_sorted _) hsorted hp
      ((hp.map _).nodup_iff.2 hnames)

/-- C19, witness: an output of `GetStatusFiles` with three distinct names, reconciled
against itself with `a.txt` selected. -/
theorem mergeStatusFiles_fixed_point_witness :
    ((statusFilesOf "M  b.txt\n M a.txt\n?? c.txt\n").map (fun f => f.Name)).Nodup ∧
    StagedFirstSorted (statusFilesOf "M  b.txt\n M a.txt\n?? c.txt\n") ∧
    MergeStatusFiles renameMethods (statusFilesOf "M  b.txt\n M a.txt\n?? c.txt\n")
      (statusFilesOf "M  b.txt\n M a.txt\n?? c.txt\n") ((recordFiles [" M a.txt"]).head?) =
      statusFilesOf "M  b.txt\n M a.txt\n?? c.txt\n" :=
  ⟨by decide, by decide,
    mergeStatusFiles_fixed_point renameMethods _ _ renameMethods_matches_self
      (by decide) (by decide)⟩

/-! ### Merge conflicts -/

/-- C18: for every record that `GetStatusFiles` decodes, `HasInlineMergeConflicts` implies
`HasMergeConflicts`, and the record with code `DD` has `HasMergeConflicts` without
`HasInlineMergeConflicts`. -/
theorem inline_conflicts_strict_subset (c : GitCommand) (record : GoString) (f : File)
    (h : statusFile c record = some f) :
    (f.HasInlineMergeConflicts = true → f.HasMergeConflicts = true) ∧
    ∃ g, statusFile c (bytes "DD a.txt") = some g ∧
      g.HasMergeConflicts = true ∧ g.HasInlineMergeConflicts = false := by
  constructor
  · obtain ⟨_, _, _, _, _, hm, hi⟩ := statusFile_decodes c record f h
    rw [hm, hi]
    simp only [decide_eq_true_eq, List.mem_cons]
    rintro (h1 | h1 | h1)
    · exact Or.inr (Or.inr (Or.inl h1))
    · exact Or.inr (Or.inl h1)
    · simp at h1
  · obtain ⟨g, hg⟩ := Option.isSome_iff_exists.1
      ((statusFile_isSome_iff c (bytes "DD a.txt")).2 (by decide))
    obtain ⟨_, _, _, _, _, hm, hi⟩ := statusFile_decodes c _ g hg
    exact ⟨g, hg, by rw [hm]; decide, by rw [hi]; decide⟩

/-- C18, witness: the records `UU a.txt` and `DD a.txt` as `GetStatusFiles` decodes them. -/
theorem inline_conflicts_strict_subset_witness :
    (statusFilesOf "UU a.txt\nDD b.txt\n").map
        (fun f => (f.ShortStatus, f.HasMergeConflicts, f.HasInlineMergeConflicts)) =
      [(bytes "DD", true, false), (bytes "UU", true, true)] ∧
    ∀ f ∈ recordFiles ["UU a.txt"],
      (f.HasInlineMergeConflicts = true → f.HasMergeConflicts = true) ∧
      ∃ g, statusFile (sampleCommand []) (bytes "DD a.txt") = some g ∧
        g.HasMergeConflicts = true ∧ g.HasInlineMergeConflicts = false :=
  ⟨by decide, fun f hf => inline_conflicts_strict_subset (sampleCommand []) (bytes "UU a.txt") f
    ((by decide : ∀ f ∈ recordFiles ["UU a.txt"],
      statusFile (sampleCommand []) (bytes "UU a.txt") = some f) f hf)⟩

/-! ### The comparison target of the merge-base resolver -/

/-- C11: with `master` as the only trunk name, when the current branch resolves, the result
of `getMergeBase` is computed from the answer of the runner to exactly
`["merge-base", ref, "master"]` if the branch is `master` and to exactly
`["merge-base", ref, "develop"]` otherwise: the trimmed output with no error when that
command succeeds. -/
theorem getMergeBase_target (b : CommitListBuilder) (ref : GoString)
    (htrunk : b.trunkNames = [bytes "master"]) (hbranch : (CurrentBranchName b).2 = none) :
    getMergeBase b ref =
      (if (b.run (bytes "git") [bytes "merge-base", ref,
            if (CurrentBranchName b).1 = bytes "master" then bytes "master"
            else bytes "develop"]).2.isSome = true
        then (bytes "", none)
        else (TrimSpace (b.run (bytes "git") [bytes "merge-base", ref,
            if (CurrentBranchName b).1 = bytes "master" then bytes "master"
            else bytes "develop"]).1, none)) := by
  unfold getMergeBase
  rcases hb : CurrentBranchName b with ⟨branch, _ | err⟩
  · have htarget : baseBranchOf b branch =
        if branch = bytes "master" then bytes "master" else bytes "develop" := by
      unfold baseBranchOf
      rw [htrunk]
      by_cases hm : branch = bytes "master"
      · simp [hm]
      · have hm' : ¬ bytes "master" = branch := fun e => hm e.symm
        simp [hm, hm']
    simp only [htarget]
    rcases hr : b.run (bytes "git") [bytes "merge-base", ref,
        if branch = bytes "master" then bytes "master" else bytes "develop"] with ⟨out, _ | e⟩
    · simp
    · simp
  · rw [hb] at hbranch
    cases hbranch

/-- C11, witness: the scenarios of the test; on `master` the runner is asked for
`merge-base HEAD master`, on `feature/test` for `merge-base HEAD develop`, and the output
`blah` followed by a line feed gives the commit `blah`. -/
theorem getMergeBase_target_witness :
    getMergeBase ⟨assertingRunner (bytes "master\n")
        [bytes "merge-base", bytes "HEAD", bytes "master"] (bytes "blah\n"),
        [bytes "master"]⟩ (bytes "HEAD") = (bytes "blah", none) ∧
    getMergeBase ⟨assertingRunner (bytes "feature/test\n")
        [bytes "merge-base", bytes "HEAD", bytes "develop"] (bytes "blah\n"),
        [bytes "master"]⟩ (bytes "HEAD") = (bytes "blah", none) :=
  ⟨(getMergeBase_target ⟨assertingRunner (bytes "master\n")
        [bytes "merge-base", bytes "HEAD", bytes "master"] (bytes "blah\n"),
        [bytes "master"]⟩ (bytes "HEAD") rfl (by decide)).trans (by decide),
   (getMergeBase_target ⟨assertingRunner (bytes "feature/test\n")
        [bytes "merge-base", bytes "HEAD", bytes "develop"] (bytes "blah\n"),
        [bytes "master"]⟩ (bytes "HEAD") rfl (by decide)).trans (by decide)⟩

/-! ### A failed status fetch -/

theorem statusOutputOf_withoutError (c : GitCommand) (opts : GetStatusFileOptions) :
    statusOutputOf (withoutError c) opts = statusOutputOf c opts := rfl

theorem statusFile_withoutError (c : GitCommand) (s : GoString) :
    statusFile (withoutError c) s = statusFile c s := rfl

theorem statusLoop_withoutError (c : GitCommand) : ∀ (lines : List GoString) (acc : List File),
    statusLoop (withoutError c) lines acc = statusLoop c lines acc := by
  intro lines
  induction lines with
  | nil => intro acc; rfl
  | cons l rest ih =>
    intro acc
    simp only [statusLoop, statusFile_withoutError, ih]

/-- C12: an error reported by the runner does not change what `GetStatusFiles` returns: the
result is the one for a runner that returns the same text without an error; and when the
text is empty, in which `SplitLines` finds no line, the result is the empty list. -/
theorem getStatusFiles_ignores_fetch_error (c : GitCommand) (opts : GetStatusFileOptions)
    (hsplit : c.SplitLines (bytes "") = []) :
    GetStatusFiles c opts = GetStatusFiles (withoutError c) opts ∧
    (statusOutputOf c opts = bytes "" → GetStatusFiles c opts = some []) := by
  constructor
  · simp only [GetStatusFiles, statusOutputOf_withoutError, statusLoop_withoutError]
    rfl
  · intro h
    unfold GetStatusFiles
    rw [h, hsplit]
    rfl

/-- C12, witness: the runner fails with `exit status 128`; with the text of two records the
two files are returned as for a successful call, with an empty text the empty list. -/
theorem getStatusFiles_ignores_fetch_error_witness :
    (GetStatusFiles (failingCommand (bytes " M b.txt\n?? a.txt\n") (bytes "exit status 128"))
        ⟨false⟩ =
      GetStatusFiles (sampleCommand (bytes " M b.txt\n?? a.txt\n")) ⟨false⟩) ∧
    (GetStatusFiles (failingCommand (bytes " M b.txt\n?? a.txt\n") (bytes "exit status 128"))
        ⟨false⟩).map List.length = some 2 ∧
    GetStatusFiles (failingCommand (bytes "") (bytes "exit status 128")) ⟨false⟩ = some [] :=
  ⟨(getStatusFiles_ignores_fetch_error
      (failingCommand (bytes " M b.txt\n?? a.txt\n") (bytes "exit status 128")) ⟨false⟩
      (by decide)).1,
    by decide,
    (getStatusFiles_ignores_fetch_error (failingCommand (bytes "") (bytes "exit status 128"))
      ⟨false⟩ (by decide)).2 (by decide)⟩

/-! ### The deferral by waitForMatchingFile -/

theorem waitForMatchingFile_iff (m : FileMethods) (sel : Option File) (o f : File) :
    waitForMatchingFile m sel o f = true ↔
      ∃ s, sel = some s ∧ m.IsRename f = true ∧ m.IsRename s = false ∧
        m.Matches f s = true ∧ m.Matches o s = false := by
  cases sel with
  | none => simp [waitForMatchingFile]
  | some s =>
    simp only [waitForMatchingFile, Bool.and_eq_true, Bool.not_eq_true', Option.some.injEq]
    constructor
    · rintro ⟨⟨⟨h1, h2⟩, h3⟩, h4⟩
      exact ⟨s, rfl, h1, h2, h3, h4⟩
    · rintro ⟨s', rfl, h1, h2, h3, h4⟩
      exact ⟨⟨⟨h1, h2⟩, h3⟩, h4⟩

/-- C13 (as the code has it): an unconsumed entry `newFile` that `oldFile` matches is skipped
by the inner loop exactly when a selected file is given, `newFile` is a rename, the selected
file is not a rename, `newFile` matches the selected file and `oldFile` does not match the
selected file; in every other case it is appended. -/
theorem mergeInner_skips_iff (m : FileMethods) (selectedFile : Option File)
    (oldFile newFile : File) (newFiles : List File) (st : MergeState) (newIndex : Nat)
    (hnew : newFiles[newIndex]? = some newFile) (hfree : newIndex ∉ st.appendedIndexes)
    (hmatch : m.Matches oldFile newFile = true) :
    (newIndex ∉ (mergeInner m selectedFile oldFile 0 newFiles st).appendedIndexes ↔
      ∃ s, selectedFile = some s ∧ m.IsRename newFile = true ∧ m.IsRename s = false ∧
        m.Matches newFile s = true ∧ m.Matches oldFile s = false) ∧
    (newIndex ∈ (mergeInner m selectedFile oldFile 0 newFiles st).appendedIndexes →
      newFile ∈ (mergeInner m selectedFile oldFile 0 newFiles st).result) := by
  rw [← waitForMatchingFile_iff, mem_mergeInner_indexes]
  constructor
  · constructor
    · intro h
      cases hw : waitForMatchingFile m selectedFile oldFile newFile
      · exact absurd (Or.inr ⟨newFile, hnew, hmatch, hw⟩) h
      · rfl
    · rintro hw (h | ⟨g, hg, _, hwg⟩)
      · exact hfree h
      · rw [hnew] at hg
        cases hg
        rw [hw] at hwg
        cases hwg
  · rintro (h | ⟨g, hg, hm, hwg⟩)
    · exact absurd h hfree
    · rw [hnew] at hg
      cases hg
      rw [mergeInner_eq]
      refine List.mem_append_right _ (List.mem_map.2 ⟨(newIndex, newFile), ?_, rfl⟩)
      exact mem_pickedBy.2 ⟨hnew, hfree, hm, hwg⟩

/-- C13, witness: old `a.txt`, new rename `a.txt -> b.txt` at index 0; with `b.txt` selected
the entry is skipped, with no selection it is appended. -/
theorem mergeInner_skips_iff_witness :
    (recordFiles ["D  a.txt"]).length = 1 ∧ (recordFiles ["R  a.txt -> b.txt"]).length = 1 ∧
    ∀ o ∈ recordFiles ["D  a.txt"], ∀ f ∈ recordFiles ["R  a.txt -> b.txt"],
      (0 ∉ (mergeInner renameMethods (recordFiles ["?? b.txt"]).head? o 0
          (recordFiles ["R  a.txt -> b.txt"])
          { result := [], appendedIndexes := [] }).appendedIndexes ↔
        ∃ s, (recordFiles ["?? b.txt"]).head? = some s ∧ renameMethods.IsRename f = true ∧
          renameMethods.IsRename s = false ∧ renameMethods.Matches f s = true ∧
          renameMethods.Matches o s = false) ∧
      (0 ∈ (mergeInner renameMethods (recordFiles ["?? b.txt"]).head? o 0
          (recordFiles ["R  a.txt -> b.txt"])
          { result := [], appendedIndexes := [] }).appendedIndexes →
        f ∈ (mergeInner renameMethods (recordFiles ["?? b.txt"]).head? o 0
          (recordFiles ["R  a.txt -> b.txt"])
          { result := [], appendedIndexes := [] }).result) :=
  ⟨by decide, by decide,
   fun o ho f hf => mergeInner_skips_iff renameMethods (recordFiles ["?? b.txt"]).head? o f
    (recordFiles ["R  a.txt -> b.txt"]) { result := [], appendedIndexes := [] } 0
    ((by decide : ∀ f ∈ recordFiles ["R  a.txt -> b.txt"],
      (recordFiles ["R  a.txt -> b.txt"])[0]? = some f) f hf)
    (by simp)
    ((by decide : ∀ o ∈ recordFiles ["D  a.txt"], ∀ f ∈ recordFiles ["R  a.txt -> b.txt"],
      renameMethods.Matches o f = true) o ho f hf)⟩

/-- C13, counterexample: (1) old `a.txt` is not a rename, the new rename `a.txt -> b.txt`
matches the selected rename `b.txt -> d.txt`, which old `a.txt` does not match: the entry is
not skipped, it is appended; (2) old `a.txt -> c.txt` is a rename and the selected `b.txt`
is not: the new rename `a.txt -> b.txt` is skipped. -/
theorem waitForMatchingFile_tests_selected_file :
    (∀ o ∈ recordFiles ["D  a.txt"], ∀ f ∈ recordFiles ["R  a.txt -> b.txt"],
      ∀ s ∈ recordFiles ["R  b.txt -> d.txt"],
        renameMethods.Matches o f = true ∧ renameMethods.IsRename f = true ∧
        renameMethods.IsRename o = false ∧ renameMethods.Matches f s = true ∧
        renameMethods.Matches o s = false ∧
        waitForMatchingFile renameMethods (some s) o f = false) ∧
    MergeStatusFiles renameMethods (recordFiles ["D  a.txt"])
        (recordFiles ["R  a.txt -> b.txt"]) (recordFiles ["R  b.txt -> d.txt"]).head? =
      recordFiles ["R  a.txt -> b.txt"] ∧
    (∀ o ∈ recordFiles ["R  a.txt -> c.txt"], ∀ f ∈ recordFiles ["R  a.txt -> b.txt"],
      ∀ s ∈ recordFiles ["?? b.txt"],
        renameMethods.Matches o f = true ∧ renameMethods.IsRename f = true ∧
        renameMethods.IsRename o = true ∧ renameMethods.Matches f s = true ∧
        renameMethods.Matches o s = false ∧
        waitForMatchingFile renameMethods (some s) o f = true) ∧
    MergeStatusFiles renameMethods (recordFiles ["R  a.txt -> c.txt"])
        (recordFiles ["R  a.txt -> b.txt"]) (recordFiles ["?? b.txt"]).head? = [] := by
  decide

/-! ### The effect of the selected file on the content -/

theorem subperm_of_indexes_subset {l res₁ res₂ : List File} {idx₁ idx₂ : List Nat}
    (hn₁ : idx₁.Nodup)
    (hf₁ : List.Forall₂ (fun f i => l[i]? = some f) res₁ idx₁)
    (hf₂ : List.Forall₂ (fun f i => l[i]? = some f) res₂ idx₂)
    (h : idx₁ ⊆ idx₂) : res₁.Subperm res₂ := by
  obtain ⟨l', hperm, hsl⟩ := hn₁.subperm h
  refine ⟨l'.filterMap (fun i => l[i]?), ?_, ?_⟩
  · rw [← forall₂_indexes_filterMap hf₁]
    exact hperm.filterMap _
  · rw [← forall₂_indexes_filterMap hf₂]
    exact hsl.filterMap _

theorem waitForMatchingFile_none (m : FileMethods) (o f : File) :
    waitForMatchingFile m none o f = false := rfl

/-- C14 (as the code has it): the result of `MergeStatusFiles` with a selected file holds only
entries of the result without a selected file, each at most as often as there: a selection
never adds an entry, but an entry deferred by `waitForMatchingFile` can be missing. -/
theorem mergeStatusFiles_selection_subperm (m : FileMethods) (oldFiles newFiles : List File)
    (selectedFile : Option File) :
    (∃ sub, sub.Sublist (MergeStatusFiles m oldFiles newFiles none) ∧
      (MergeStatusFiles m oldFiles newFiles selectedFile).Perm sub) ∧
    ∀ f ∈ MergeStatusFiles m oldFiles newFiles selectedFile,
      f ∈ MergeStatusFiles m oldFiles newFiles none := by
  have hsub : (MergeStatusFiles m oldFiles newFiles selectedFile).Subperm
      (MergeStatusFiles m oldFiles newFiles none) := by
    unfold MergeStatusFiles
    by_cases h0 : oldFiles.length = 0
    · rw [if_pos h0, if_pos h0]
    · rw [if_neg h0, if_neg h0]
      have hs := mergeOuter_inv_init m selectedFile oldFiles newFiles
      have hn := mergeOuter_inv_init m none oldFiles newFiles
      have hsubset : (mergeOuter m selectedFile newFiles oldFiles
          { result := [], appendedIndexes := [] }).appendedIndexes ⊆
          (mergeOuter m none newFiles oldFiles
            { result := [], appendedIndexes := [] }).appendedIndexes := by
        intro i hi
        rw [mem_mergeOuter_indexes] at hi ⊢
        rcases hi with h | ⟨o, ho, f, hf, hm, _⟩
        · exact Or.inl h
        · exact Or.inr ⟨o, ho, f, hf, hm, waitForMatchingFile_none m o f⟩
      have := subperm_of_indexes_subset hs.1 hs.2 hn.2 hsubset
      exact ((sortByStaged_perm _).subperm_right).2
        (((sortByStaged_perm _).subperm_left).2 this)
  refine ⟨?_, fun f hf => hsub.subset hf⟩
  obtain ⟨sub, hperm, hsl⟩ := hsub
  exact ⟨sub, hsl, hperm.symm⟩

/-- C14, counterexample: old `a.txt`, new rename `a.txt -> b.txt`; with no selection the
rename is returned, with `b.txt` selected it is deferred and the result is empty. -/
theorem mergeStatusFiles_selection_drops :
    MergeStatusFiles renameMethods (recordFiles ["D  a.txt"])
        (recordFiles ["R  a.txt -> b.txt"]) none = recordFiles ["R  a.txt -> b.txt"] ∧
    recordFiles ["R  a.txt -> b.txt"] ≠ [] ∧
    MergeStatusFiles renameMethods (recordFiles ["D  a.txt"])
        (recordFiles ["R  a.txt -> b.txt"]) (recordFiles ["?? b.txt"]).head? = [] := by
  decide

/-! ### The rename-aware matching -/

theorem renameMethods_byName : ByName renameMethods := by
  intro f g h
  simp only [renameMethods, Names, h]
  exact ⟨trivial, fun _ => ⟨trivial, trivial⟩⟩

theorem splitSep_of_no_sep (sep : GoString) : ∀ (s cur : GoString),
    (∀ t ∈ s.tails, HasPrefix t sep = false) → splitSep sep s 0 cur = [cur ++ s] := by
  intro s
  induction s with
  | nil => intro cur _; simp [splitSep]
  | cons b rest ih =>
    intro cur h
    have hb : HasPrefix (b :: rest) sep = false := h _ (by simp)
    have hrest : ∀ t ∈ rest.tails, HasPrefix t sep = false :=
      fun t ht => h t (by simp [ht])
    unfold splitSep
    rw [if_neg (by simp [hb]), ih _ hrest]
    simp

theorem Names_of_not_rename (f : File) (h : renameMethods.IsRename f = false) :
    Names f = [f.Name] := by
  unfold Names
  rw [splitSep_of_no_sep]
  · simp
  · intro t ht
    simp only [renameMethods, Contains] at h
    rw [Bool.eq_false_iff] at h ⊢
    intro hp
    exact h (List.any_eq_true.2 ⟨t, ht, hp⟩)

theorem renameMethods_matches_iff (f g : File) :
    renameMethods.Matches f g = true ↔ ∃ n, n ∈ Names f ∧ n ∈ Names g := by
  simp only [renameMethods, List.any_eq_true, beq_iff_eq]
  constructor
  · rintro ⟨n, hn, n', hn', rfl⟩
    exact ⟨n, hn, hn'⟩
  · rintro ⟨n, hn, hn'⟩
    exact ⟨n, hn, n, hn', rfl⟩

/-- An old entry that matches the selected file takes every rename that is deferred for the
selected file. -/
theorem renameMethods_selected_takes (sel q o f : File)
    (hq : renameMethods.Matches q sel = true)
    (hw : waitForMatchingFile renameMethods (some sel) o f = true) :
    renameMethods.Matches q f = true ∧
      waitForMatchingFile renameMethods (some sel) q f = false := by
  obtain ⟨s, hs, _, hnr, hfs, _⟩ := (waitForMatchingFile_iff _ _ _ _).1 hw
  cases hs
  have hnames := Names_of_not_rename sel hnr
  obtain ⟨n, hnq, hns⟩ := (renameMethods_matches_iff q sel).1 hq
  obtain ⟨n', hnf, hns'⟩ := (renameMethods_matches_iff f sel).1 hfs
  rw [hnames, List.mem_singleton] at hns hns'
  subst hns
  subst hns'
  refine ⟨(renameMethods_matches_iff q f).2 ⟨_, hnq, hnf⟩, ?_⟩
  cases hwq : waitForMatchingFile renameMethods (some sel) q f
  · rfl
  · obtain ⟨s, hs, _, _, _, hqs⟩ := (waitForMatchingFile_iff _ _ _ _).1 hwq
    cases hs
    rw [hq] at hqs
    cases hqs

/-! ### Entries with one name in the match pass -/

theorem waitForMatchingFile_byName {m : FileMethods} (hm : ByName m) (sel : Option File)
    (o f g : File) (h : f.Name = g.Name) :
    waitForMatchingFile m sel o f = waitForMatchingFile m sel o g := by
  cases sel with
  | none => rfl
  | some s =>
    simp only [waitForMatchingFile, (hm f g h).1, ((hm f g h).2 s).2]

theorem mergeInner_ties (m : FileMethods) (hm : ByName m) (sel : Option File) (o : File)
    (newFiles : List File) (st : MergeState)
    (h1 : TiesTogether newFiles st.appendedIndexes)
    (h2 : TiesInOrder newFiles st.appendedIndexes) :
    TiesTogether newFiles (mergeInner m sel o 0 newFiles st).appendedIndexes ∧
    TiesInOrder newFiles (mergeInner m sel o 0 newFiles st).appendedIndexes := by
  constructor
  · intro i j f g hf hg hname hi
    rw [mem_mergeInner_indexes] at hi ⊢
    rcases hi with hi | ⟨f', hf', hmf, hwf⟩
    · exact Or.inl (h1 i j f g hf hg hname hi)
    · rw [hf] at hf'
      cases hf'
      refine Or.inr ⟨g, hg, ?_, ?_⟩
      · rw [← ((hm f g hname).2 o).1]; exact hmf
      · rw [← waitForMatchingFile_byName hm sel o f g hname]; exact hwf
  · unfold TiesInOrder
    rw [mergeInner_eq]
    simp only
    rw [List.pairwise_append]
    refine ⟨h2, ?_, ?_⟩
    · have hsub : ((pickedBy m sel o st.appendedIndexes 0 newFiles).map Prod.fst).Sublist
          ((newFiles.enumFrom 0).map Prod.fst) := (List.filter_sublist _).map _
      rw [List.enumFrom_map_fst] at hsub
      have hlt : ((pickedBy m sel o st.appendedIndexes 0 newFiles).map Prod.fst).Pairwise
          (fun i j => i < j) := (List.pairwise_lt_range' _ _).sublist hsub
      exact hlt.imp (fun hij _ _ _ _ _ => hij)
    · intro i hi j hj f g hf hg hname
      obtain ⟨p, hp, rfl⟩ := List.mem_map.1 hj
      exact absurd (h1 i p.1 f g hf hg hname hi) (mem_pickedBy.1 hp).2.1

theorem mergeOuter_ties (m : FileMethods) (hm : ByName m) (sel : Option File)
    (newFiles : List File) : ∀ (oldFiles : List File) (st : MergeState),
    TiesTogether newFiles st.appendedIndexes → TiesInOrder newFiles st.appendedIndexes →
    TiesInOrder newFiles (mergeOuter m sel newFiles oldFiles st).appendedIndexes := by
  intro oldFiles
  induction oldFiles with
  | nil => intro st _ h2; exact h2
  | cons o rest ih =>
    intro st h1 h2
    have := mergeInner_ties m hm sel o newFiles st h1 h2
    exact ih _ this.1 this.2

/-! ### Lists in presentation order are determined by their entries per flag and name -/

theorem withKey_cons (s : Bool) (n : GoString) (a : File) (l : List File) :
    withKey s n (a :: l) =
      if (a.HasStagedChanges == s && a.Name == n) = true then a :: withKey s n l
      else withKey s n l := by
  simp [withKey, List.filter_cons]

theorem withKey_self (a : File) (l : List File) :
    withKey a.HasStagedChanges a.Name (a :: l) = a :: withKey a.HasStagedChanges a.Name l := by
  simp [withKey_cons]

theorem mem_of_withKey_eq_cons {s : Bool} {n : GoString} {a : File} {l t : List File}
    (h : withKey s n l = a :: t) :
    a ∈ l ∧ a.HasStagedChanges = s ∧ a.Name = n := by
  have ha : a ∈ withKey s n l := by rw [h]; exact List.mem_cons_self _ _
  unfold withKey at ha
  have := List.mem_filter.1 ha
  simp only [Bool.and_eq_true, beq_iff_eq] at this
  exact ⟨this.1, this.2.1, this.2.2⟩

theorem stagedFirstSorted_ext : ∀ (l₁ l₂ : List File),
    StagedFirstSorted l₁ → StagedFirstSorted l₂ →
    (∀ (s : Bool) (n : GoString), withKey s n l₁ = withKey s n l₂) → l₁ = l₂
  | [], [], _, _, _ => rfl
  | [], b :: t₂, _, _, h => by
    have := h b.HasStagedChanges b.Name
    rw [withKey_self] at this
    simp [withKey] at this
  | a :: t₁, [], _, _, h => by
    have := h a.HasStagedChanges a.Name
    rw [withKey_self] at this
    simp [withKey] at this
  | a :: t₁, b :: t₂, h₁, h₂, h => by
    have hab : a = b := by
      have ha := h a.HasStagedChanges a.Name
      rw [withKey_self] at ha
      have hb := h b.HasStagedChanges b.Name
      rw [withKey_self] at hb
      obtain ⟨ha2, _, _⟩ := mem_of_withKey_eq_cons ha.symm
      obtain ⟨hb1, _, _⟩ := mem_of_withKey_eq_cons hb
      rcases List.mem_cons.1 ha2 with e | ha2
      · exact e
      rcases List.mem_cons.1 hb1 with e | hb1
      · exact e.symm
      have rab := List.rel_of_pairwise_cons h₁ hb1
      have rba := List.rel_of_pairwise_cons h₂ ha2
      have hflag : a.HasStagedChanges = b.HasStagedChanges := by
        have h1 := rab.1
        have h2 := rba.1
        cases ha' : a.HasStagedChanges <;> cases hb' : b.HasStagedChanges <;> simp_all
      have hname : a.Name = b.Name := strLess_antisymm _ _ (rba.2 hflag.symm) (rab.2 hflag)
      rw [hflag, hname, withKey_self] at ha
      exact (List.cons.inj ha).1
    subst hab
    have ht : ∀ (s : Bool) (n : GoString), withKey s n t₁ = withKey s n t₂ := by
      intro s n
      have := h s n
      rw [withKey_cons, withKey_cons] at this
      split at this
      · exact (List.cons.inj this).2
      · exact this
    rw [stagedFirstSorted_ext t₁ t₂ (List.Pairwise.of_cons h₁) (List.Pairwise.of_cons h₂) ht]

theorem withKey_of_indexes {l res : List File} {idxs : List Nat}
    (hf : List.Forall₂ (fun f i => l[i]? = some f) res idxs) (s : Bool) (n : GoString) :
    withKey s n res = (idxs.filter (keyAt l s n)).filterMap (fun i => l[i]?) := by
  induction hf with
  | nil => rfl
  | cons hab _ ih =>
    rw [withKey_cons, List.filter_cons]
    simp only [keyAt, hab]
    split
    · rw [List.filterMap_cons, hab, ih]
    · exact ih

theorem filter_keyAt_eq {l : List File} {idx₁ idx₂ : List Nat} (s : Bool) (n : GoString)
    (hn₁ : idx₁.Nodup) (hn₂ : idx₂.Nodup) (ho₁ : TiesInOrder l idx₁) (ho₂ : TiesInOrder l idx₂)
    (hmem : ∀ i, i ∈ idx₁ ↔ i ∈ idx₂) :
    idx₁.filter (keyAt l s n) = idx₂.filter (keyAt l s n) := by
  have hlt : ∀ idxs : List Nat, TiesInOrder l idxs →
      (idxs.filter (keyAt l s n)).Pairwise (fun i j => i < j) := by
    intro idxs ho
    refine (List.Pairwise.filter _ ho).imp_of_mem ?_
    intro i j hi hj hij
    have hki := (List.mem_filter.1 hi).2
    have hkj := (List.mem_filter.1 hj).2
    unfold keyAt at hki hkj
    cases hfi : l[i]? with
    | none => simp [hfi] at hki
    | some f =>
      cases hgj : l[j]? with
      | none => simp [hgj] at hkj
      | some g =>
        simp only [hfi, hgj, Bool.and_eq_true, beq_iff_eq] at hki hkj
        exact hij f g hfi hgj (hki.2.trans hkj.2.symm)
  refine List.Perm.eq_of_sorted ?_ (hlt idx₁ ho₁) (hlt idx₂ ho₂) ?_
  · intro a b _ _ hab hba
    omega
  · refine (List.perm_ext_iff_of_nodup (hn₁.filter _) (hn₂.filter _)).2 ?_
    intro i
    simp only [List.mem_filter, hmem]

/-! ### The selected file when an old entry matches it -/

theorem mergeOuter_ties_init (m : FileMethods) (hm : ByName m) (sel : Option File)
    (oldFiles newFiles : List File) :
    TiesInOrder newFiles
      (mergeOuter m sel newFiles oldFiles { result := [], appendedIndexes := [] }).appendedIndexes :=
  mergeOuter_ties m hm sel newFiles oldFiles _
    (fun _ _ _ _ _ _ _ hi => absurd hi (List.not_mem_nil _)) List.Pairwise.nil

theorem mergeStatusFiles_eq_of_same_indexes (m : FileMethods) (hm : ByName m)
    (oldFiles newFiles : List File) (sel₁ sel₂ : Option File)
    (hmem : ∀ i,
      i ∈ (mergeOuter m sel₁ newFiles oldFiles
        { result := [], appendedIndexes := [] }).appendedIndexes ↔
      i ∈ (mergeOuter m sel₂ newFiles oldFiles
        { result := [], appendedIndexes := [] }).appendedIndexes) :
    MergeStatusFiles m oldFiles newFiles sel₁ = MergeStatusFiles m oldFiles newFiles sel₂ := by
  unfold MergeStatusFiles
  by_cases h0 : oldFiles.length = 0
  · rw [if_pos h0, if_pos h0]
  · rw [if_neg h0, if_neg h0]
    have h₁ := mergeOuter_inv_init m sel₁ oldFiles newFiles
    have h₂ := mergeOuter_inv_init m sel₂ oldFiles newFiles
    refine stagedFirstSorted_ext _ _ (sortByStaged_sorted _) (sortByStaged_sorted _) ?_
    intro s n
    rw [withKey_sortByStaged, withKey_sortByStaged, withKey_of_indexes h₁.2,
      withKey_of_indexes h₂.2,
      filter_keyAt_eq s n h₁.1 h₂.1 (mergeOuter_ties_init m hm sel₁ oldFiles newFiles)
        (mergeOuter_ties_init m hm sel₂ oldFiles newFiles) hmem]

/-- C20: with `IsRename` and `Matches` read from the names split at ` -> `, when an entry of
`oldFiles` matches the selected file (so `oldFiles` is not empty), `MergeStatusFiles` returns
the same list with the selected file as with no selected file. -/
theorem mergeStatusFiles_selected_matched (oldFiles newFiles : List File) (sel : File)
    (hsel : ∃ o ∈ oldFiles, renameMethods.Matches o sel = true) :
    MergeStatusFiles renameMethods oldFiles newFiles (some sel) =
      MergeStatusFiles renameMethods oldFiles newFiles none := by
  refine mergeStatusFiles_eq_of_same_indexes renameMethods renameMethods_byName
    oldFiles newFiles (some sel) none ?_
  intro i
  rw [mem_mergeOuter_indexes, mem_mergeOuter_indexes]
  constructor
  · rintro (h | ⟨o, ho, f, hf, hm, _⟩)
    · exact Or.inl h
    · exact Or.inr ⟨o, ho, f, hf, hm, waitForMatchingFile_none _ o f⟩
  · rintro (h | ⟨o, ho, f, hf, hm, _⟩)
    · exact Or.inl h
    · cases hw : waitForMatchingFile renameMethods (some sel) o f
      · exact Or.inr ⟨o, ho, f, hf, hm, hw⟩
      · obtain ⟨q, hq, hqs⟩ := hsel
        obtain ⟨hqf, hwq⟩ := renameMethods_selected_takes sel q o f hqs hw
        exact Or.inr ⟨q, hq, f, hf, hqf, hwq⟩

/-- C20, witness: `b.txt` has been staged and is selected; together with the deleted `a.txt`
it has become the rename `a.txt -> b.txt`, which is deferred for the old `a.txt` and taken
for the old `b.txt`. -/
theorem mergeStatusFiles_selected_matched_witness :
    recordFiles [" D a.txt", "?? b.txt"] ≠ [] ∧
    (∀ sel ∈ recordFiles ["?? b.txt"],
      (∃ o ∈ recordFiles [" D a.txt", "?? b.txt"], renameMethods.Matches o sel = true) ∧
      (∀ o ∈ recordFiles [" D a.txt"], ∀ f ∈ recordFiles ["R  a.txt -> b.txt"],
        waitForMatchingFile renameMethods (some sel) o f = true) ∧
      MergeStatusFiles renameMethods (recordFiles [" D a.txt", "?? b.txt"])
          (statusFilesOf "R  a.txt -> b.txt\n") (some sel) =
        MergeStatusFiles renameMethods (recordFiles [" D a.txt", "?? b.txt"])
          (statusFilesOf "R  a.txt -> b.txt\n") none) :=
  ⟨by decide, fun sel hsel =>
    ⟨(by decide : ∀ sel ∈ recordFiles ["?? b.txt"],
        ∃ o ∈ recordFiles [" D a.txt", "?? b.txt"], renameMethods.Matches o sel = true) sel hsel,
     (by decide : ∀ sel ∈ recordFiles ["?? b.txt"],
        ∀ o ∈ recordFiles [" D a.txt"], ∀ f ∈ recordFiles ["R  a.txt -> b.txt"],
          waitForMatchingFile renameMethods (some sel) o f = true) sel hsel,
     mergeStatusFiles_selected_matched (recordFiles [" D a.txt", "?? b.txt"])
       (statusFilesOf "R  a.txt -> b.txt\n") sel
       ((by decide : ∀ sel ∈ recordFiles ["?? b.txt"],
        ∃ o ∈ recordFiles [" D a.txt", "?? b.txt"], renameMethods.Matches o sel = true)
          sel hsel)⟩⟩

/-! ### The order of the old list in the reconciled list -/

theorem mergeOuter_append (m : FileMethods) (sel : Option File) (newFiles : List File) :
    ∀ (old₁ old₂ : List File) (st : MergeState),
      mergeOuter m sel newFiles (old₁ ++ old₂) st =
        mergeOuter m sel newFiles old₂ (mergeOuter m sel newFiles old₁ st) := by
  intro old₁
  induction old₁ with
  | nil => intro old₂ st; rfl
  | cons o rest ih =>
    intro old₂ st
    show mergeOuter m sel newFiles (rest ++ old₂) (mergeInner m sel o 0 newFiles st) = _
    rw [ih]
    rfl

theorem mergeOuter_result_extends (m : FileMethods) (sel : Option File)
    (newFiles : List File) : ∀ (oldFiles : List File) (st : MergeState),
    ∃ later, (mergeOuter m sel newFiles oldFiles st).result = st.result ++ later ∧
      ∀ f ∈ later, ∃ o ∈ oldFiles,
        m.Matches o f = true ∧ waitForMatchingFile m sel o f = false := by
  intro oldFiles
  induction oldFiles with
  | nil => intro st; exact ⟨[], by simp [mergeOuter], fun f hf => absurd hf (List.not_mem_nil f)⟩
  | cons o rest ih =>
    intro st
    obtain ⟨later, h1, h2⟩ := ih (mergeInner m sel o 0 newFiles st)
    refine ⟨(pickedBy m sel o st.appendedIndexes 0 newFiles).map Prod.snd ++ later, ?_, ?_⟩
    · rw [mergeOuter, h1, mergeInner_eq, List.append_assoc]
    · intro f hf
      rcases List.mem_append.1 hf with hf | hf
      · obtain ⟨p, hp, rfl⟩ := List.mem_map.1 hf
        have := mem_pickedBy.1 hp
        exact ⟨o, List.mem_cons_self _ _, this.2.2⟩
      · obtain ⟨o', ho', h⟩ := h2 f hf
        exact ⟨o', List.mem_cons_of_mem _ ho', h⟩

theorem withKey_append (s : Bool) (n : GoString) (l₁ l₂ : List File) :
    withKey s n (l₁ ++ l₂) = withKey s n l₁ ++ withKey s n l₂ := by
  simp [withKey, List.filter_append]

/-- C6 (as the code has it): for a non-empty old list, split at any position into `old₁` and
`old₂`, the match pass puts the entries taken for `old₁` before the entries taken for `old₂`;
`MergeStatusFiles` returns `sortByStaged` of that list, in which this order is kept among the
entries with one staged flag and one name, and the staged-first, name-sorted order holds
otherwise. -/
theorem mergeStatusFiles_old_order_in_ties (m : FileMethods) (old₁ old₂ newFiles : List File)
    (selectedFile : Option File) (hne : old₁ ++ old₂ ≠ []) :
    ∃ later,
      (mergeOuter m selectedFile newFiles (old₁ ++ old₂)
          { result := [], appendedIndexes := [] }).result =
        (mergeOuter m selectedFile newFiles old₁
          { result := [], appendedIndexes := [] }).result ++ later ∧
      (∀ f ∈ later, ∃ o ∈ old₂,
        m.Matches o f = true ∧ waitForMatchingFile m selectedFile o f = false) ∧
      MergeStatusFiles m (old₁ ++ old₂) newFiles selectedFile =
        sortByStaged ((mergeOuter m selectedFile newFiles old₁
          { result := [], appendedIndexes := [] }).result ++ later) ∧
      StagedFirstSorted (MergeStatusFiles m (old₁ ++ old₂) newFiles selectedFile) ∧
      ∀ (s : Bool) (n : GoString),
        withKey s n (MergeStatusFiles m (old₁ ++ old₂) newFiles selectedFile) =
          withKey s n (mergeOuter m selectedFile newFiles old₁
            { result := [], appendedIndexes := [] }).result ++ withKey s n later := by
  obtain ⟨later, h1, h2⟩ := mergeOuter_result_extends m selectedFile newFiles old₂
    (mergeOuter m selectedFile newFiles old₁ { result := [], appendedIndexes := [] })
  have hpass : (mergeOuter m selectedFile newFiles (old₁ ++ old₂)
      { result := [], appendedIndexes := [] }).result =
      (mergeOuter m selectedFile newFiles old₁
        { result := [], appendedIndexes := [] }).result ++ later := by
    rw [mergeOuter_append, h1]
  have hcall : MergeStatusFiles m (old₁ ++ old₂) newFiles selectedFile =
      sortByStaged ((mergeOuter m selectedFile newFiles old₁
        { result := [], appendedIndexes := [] }).result ++ later) := by
    unfold MergeStatusFiles
    rw [if_neg (fun h0 => hne (List.length_eq_zero.1 h0)), hpass]
  refine ⟨later, hpass, h2, hcall, ?_, ?_⟩
  · rw [hcall]
    exact sortByStaged_sorted _
  · intro s n
    rw [hcall, withKey_sortByStaged, withKey_append]

/-- C6, witness: the old list `a.txt`, `b.txt` split after `a.txt`, with `b.txt` staged in
the new list. -/
theorem mergeStatusFiles_old_order_in_ties_witness :
    recordFiles [" M a.txt"] ++ recordFiles [" M b.txt"] ≠ [] ∧
    (mergeOuter renameMethods none (statusFilesOf "M  b.txt\n M a.txt\n")
        (recordFiles [" M a.txt"]) { result := [], appendedIndexes := [] }).result =
      recordFiles [" M a.txt"] ∧
    ∃ later,
      (mergeOuter renameMethods none (statusFilesOf "M  b.txt\n M a.txt\n")
          (recordFiles [" M a.txt"] ++ recordFiles [" M b.txt"])
          { result := [], appendedIndexes := [] }).result =
        (mergeOuter renameMethods none (statusFilesOf "M  b.txt\n M a.txt\n")
          (recordFiles [" M a.txt"]) { result := [], appendedIndexes := [] }).result ++ later ∧
      (∀ f ∈ later, ∃ o ∈ recordFiles [" M b.txt"],
        renameMethods.Matches o f = true ∧ waitForMatchingFile renameMethods none o f = false) ∧
      MergeStatusFiles renameMethods (recordFiles [" M a.txt"] ++ recordFiles [" M b.txt"])
          (statusFilesOf "M  b.txt\n M a.txt\n") none =
        sortByStaged ((mergeOuter renameMethods none (statusFilesOf "M  b.txt\n M a.txt\n")
          (recordFiles [" M a.txt"]) { result := [], appendedIndexes := [] }).result ++ later) ∧
      StagedFirstSorted (MergeStatusFiles renameMethods
        (recordFiles [" M a.txt"] ++ recordFiles [" M b.txt"])
        (statusFilesOf "M  b.txt\n M a.txt\n") none) ∧
      ∀ (s : Bool) (n : GoString),
        withKey s n (MergeStatusFiles renameMethods
            (recordFiles [" M a.txt"] ++ recordFiles [" M b.txt"])
            (statusFilesOf "M  b.txt\n M a.txt\n") none) =
          withKey s n (mergeOuter renameMethods none (statusFilesOf "M  b.txt\n M a.txt\n")
            (recordFiles [" M a.txt"]) { result := [], appendedIndexes := [] }).result ++
          withKey s n later :=
  ⟨by decide, by decide,
    mergeStatusFiles_old_order_in_ties renameMethods (recordFiles [" M a.txt"])
      (recordFiles [" M b.txt"]) (statusFilesOf "M  b.txt\n M a.txt\n") none (by decide)⟩

end Lazygit
